import Mathlib

/-!
# Revision codec and revision-range walker of the Go driver

A shallow embedding of `revision.go` (the base-64 revision codec, its JSON and
VelocyPack wrappers, the three replication requests) and of the `getRanges`
loop of `test/revisions_test.go`.

* A Go `byte` is a `Fin 256`; a `[]byte` or `string` is a `List Byte`.
* A Go `int64` is an `Int` in `[-2^63, 2^63)`; arithmetic that can overflow is
  wrapped by `wrapInt64` (two's complement).
* A Go run-time panic (index out of range) is `none`.
-/

namespace Revision

/-- A Go `byte`. -/
abbrev Byte := Fin 256

/-- The values of a Go `int64`. -/
def isInt64 (x : Int) : Prop := -(2:Int)^63 ≤ x ∧ x < (2:Int)^63

instance (x : Int) : Decidable (isInt64 x) := by
  unfold isInt64; exact inferInstance

/-- Two's-complement wrap of a mathematical integer into `int64`. -/
def wrapInt64 (x : Int) : Int := (x + (2:Int)^63) % (2:Int)^64 - (2:Int)^63

/-- The quote byte `'"'`. -/
def quote : Byte := 34

/-- The table `revisionEncodingTable` of `revision.go` (64 bytes):
`'-'`, `'_'`, `'A'`..`'Z'`, `'a'`..`'z'`, `'0'`..`'9'`. -/
def revisionEncodingTable : List Byte :=
  [45, 95, 65, 66, 67, 68, 69, 70, 71, 72, 73, 74, 75, 76, 77, 78,
   79, 80, 81, 82, 83, 84, 85, 86, 87, 88, 89, 90, 97, 98, 99, 100, 101, 102, 103, 104, 105, 106, 107,
   108, 109, 110, 111, 112, 113, 114, 115, 116, 117, 118, 119, 120, 121, 122, 48, 49, 50, 51, 52, 53, 54, 55,
   56, 57]

/-- The table `revisionDecodingTable` of `revision.go` (256 bytes), row by row as
in the source; a row of sixteen zeros is written `List.replicate 16 0`. -/
def revisionDecodingTable : List Byte :=
  List.replicate 16 0 ++ --   0 - 15
  List.replicate 16 0 ++ --  16 - 31
  List.replicate 16 0 ++ --  32 - 47 (the '-' is at place 45)
  [54, 55, 56, 57, 58, 59, 60, 61, 62, 63, 0, 0, 0, 0, 0, 0] ++ --  48 - 63
  [0, 2, 3, 4, 5, 6, 7, 8, 9, 10, 11, 12, 13, 14, 15, 16] ++ --  64 - 79
  [17, 18, 19, 20, 21, 22, 23, 24, 25, 26, 27, 0, 0, 0, 0, 1] ++ --  80 - 95
  [0, 28, 29, 30, 31, 32, 33, 34, 35, 36, 37, 38, 39, 40, 41, 42] ++ --  96 - 111
  [43, 44, 45, 46, 47, 48, 49, 50, 51, 52, 53, 0, 0, 0, 0, 0] ++ -- 112 - 127
  List.replicate 16 0 ++ -- 128 - 143
  List.replicate 16 0 ++ -- 144 - 159
  List.replicate 16 0 ++ -- 160 - 175
  List.replicate 16 0 ++ -- 176 - 191
  List.replicate 16 0 ++ -- 192 - 207
  List.replicate 16 0 ++ -- 208 - 223
  List.replicate 16 0 ++ -- 224 - 239
  List.replicate 16 0 -- 240 - 255

/-- The lookup `revisionDecodingTable[s]`: the index is a byte and the table has
256 entries, so the lookup is always in range. -/
def decodingEntry (s : Byte) : Byte := revisionDecodingTable.getD s.val 0

/-- One iteration of the `range` loop of `decodeRevision`: a quote is skipped
(`continue`), any other byte gives `t = t*64 + int64(revisionDecodingTable[s])`
in `int64` arithmetic. -/
def decodeStep (t : Int) (s : Byte) : Int :=
  if s = quote then t else wrapInt64 (t * 64 + ((decodingEntry s).val : Int))

/-- The function `decodeRevision` of `revision.go`: `t` starts at 0 and the loop
body runs over the bytes from left to right. -/
def decodeRevision (revision : List Byte) : Int :=
  revision.foldl decodeStep 0

/-- The loop `for revision > 0 { index--; result[index] = ...; revision >>= 6 }`
of `encodeRevision`, by recursion on `index`: with `index = 0` a further
iteration would write `result[-1]`, a run-time panic (`none`). The table lookup
`revisionEncodingTable[uint8(revision&0x3f)]` panics when out of range. Returns
the final `index` and buffer. -/
def encodeLoop : Nat → Int → List Byte → Option (Nat × List Byte)
  | 0, revision, result =>
    if revision > 0 then none else some (0, result)
  | index + 1, revision, result =>
    if revision > 0 then
      match revisionEncodingTable[(Int.land revision 0x3f).toNat]? with
      | none => none
      | some c => encodeLoop index (revision >>> (6 : Nat)) (result.set index c)
    else some (index + 1, result)

/-- The function `encodeRevision` of `revision.go`: the empty slice for 0,
otherwise the loop over a zeroed 12-byte buffer with `index := cap(result)`,
and the slice `result[index:]`. -/
def encodeRevision (revision : Int) : Option (List Byte) :=
  if revision = 0 then some []
  else
    match encodeLoop 12 revision (List.replicate 12 0) with
    | none => none
    | some (index, result) => some (result.drop index)

/-- The symbols of the base-64 digits of `n`, most significant first, each looked
up in `revisionEncodingTable`; empty for 0. -/
def encodedDigits (n : Nat) : List Byte :=
  (Nat.digits 64 n).reverse.map (fun d => revisionEncodingTable.getD d 0)

/-- The loop body of `decodeRevision` without the `int64` wrap. -/
def positionalStep (t : Nat) (s : Byte) : Nat :=
  if s = quote then t else t * 64 + (decodingEntry s).val

/-- The unbounded positional value of a byte string: quotes skipped, every other
byte a base-64 digit `revisionDecodingTable[s]`. -/
def positionalValue (s : List Byte) : Nat := s.foldl positionalStep 0

/-- A Go `error` value; the `nil` error is `none : Option GoError`. -/
structure GoError where
  msg : String
  deriving DecidableEq

/-- The method `UnmarshalJSON` of `RevisionInt64`: `*n = decodeRevision(revision)`
and `return nil`. The result is the new value of the receiver and the error. -/
def UnmarshalJSON (_n : Int) (revision : List Byte) : Int × Option GoError :=
  (decodeRevision revision, none)

/-- The method `MarshalJSON` of `RevisionInt64`: the two quote bytes for 0,
otherwise a quote, the bytes of `encodeRevision`, a quote, appended to an empty
slice; the error is always `nil`. -/
def MarshalJSON (n : Int) : Option (List Byte × Option GoError) :=
  if n = 0 then some ([quote, quote], none)
  else
    match encodeRevision n with
    | none => none
    | some r => some ((([] ++ [quote]) ++ r) ++ [quote], none)

/-- A `velocypack.Slice` as far as this file uses it: what `GetString` returns,
the string held by a string slice or an error for any other slice. -/
structure Slice where
  GetString : Except GoError (List Byte)

/-- The method `UnmarshalVPack` of `RevisionInt64`: the error of `GetString` is
returned with the receiver untouched, otherwise `*n = decodeRevision(source)`. -/
def UnmarshalVPack (n : Int) (slice : Slice) : Int × Option GoError :=
  match slice.GetString with
  | .error err => (n, some err)
  | .ok source => (decodeRevision source, none)

/-- The alphabet as the specification words it: two punctuation symbols `-` and
`_`, then the upper-case letters, the lower-case letters, the digits. -/
def specAlphabet : List Byte :=
  [45, 95] ++ (List.range 26).map (fun i => Fin.ofNat (65 + i))
    ++ (List.range 26).map (fun i => Fin.ofNat (97 + i))
    ++ (List.range 10).map (fun i => Fin.ofNat (48 + i))

/-- The reference encoding of the specification: the base-64 digits of `n`, most
significant first, digit `d` written as the `d`-th symbol of `specAlphabet`. -/
def base64Reference (n : Nat) : List Byte :=
  (Nat.digits 64 n).reverse.map (fun d => specAlphabet.getD d 0)

/-! ## The replication requests and the range walker -/

/-- A Go `string`, as its bytes. -/
abbrev GoString := List Byte

/-- The bytes of an ASCII string literal of the source. -/
def goString (s : String) : GoString := s.toList.map (fun c => Fin.ofNat c.toNat)

/-- Modelled from the spec: `WithStack` is declared outside the given sources;
errors are propagated unmodified to the caller. -/
def WithStack (err : GoError) : GoError := err

/-- The struct `RevisionRanges`: the rows `Ranges` (one `Revisions` per requested
range) and the cursor `Resume`. -/
structure RevisionRanges where
  Ranges : List (List Int)
  Resume : Int

/-- The zero value `RevisionRanges{}`. -/
def RevisionRanges.zero : RevisionRanges := ⟨[], 0⟩

/-- The body put in a request by `SetBodyArray` or `SetBody`. -/
inductive RequestBody where
  | minMax (ranges : List (Int × Int))
  | revisions (list : List Int)

/-- A request of the transport as far as `revision.go` builds it: the method,
the arguments of `path.Join`, the query parameters and the body. -/
structure Request where
  method : String
  path : List GoString
  query : List (String × GoString)
  body : Option RequestBody

/-- Modelled from the spec: `SetQuery` of the transport's request (declared
outside the given sources) sets the query parameter `key` to `value`, replacing
an earlier value. -/
def Request.SetQuery (req : Request) (key : String) (value : GoString) : Request :=
  { req with query := req.query.filter (fun kv => kv.1 ≠ key) ++ [(key, value)] }

/-- A response of the transport as `revision.go` reads it: the status code, the
error `CheckStatus` reports when the status is not the expected one, and the
outcome of parsing the body into the expected type. -/
structure Response (β : Type) where
  StatusCode : Nat
  statusError : GoError
  body : Except GoError β

/-- Modelled from the spec: `CheckStatus` of the transport's response (declared
outside the given sources) returns nil when the status is the expected one and
an error otherwise. -/
def Response.CheckStatus {β : Type} (resp : Response β) (expected : Nat) : Option GoError :=
  if resp.StatusCode = expected then none else some resp.statusError

/-- The connection `c.conn`, a parameter of the model: `NewRequest`,
`SetBodyArray` and `SetBody` may fail, `Do` performs one round trip from a
transport state `σ` and gives the next state. -/
structure Connection (σ β : Type) where
  NewRequest : String → List GoString → Except GoError Request
  SetBodyArray : Request → List (Int × Int) → Except GoError Request
  SetBody : Request → List Int → Except GoError Request
  Do : σ → Request → Except GoError (Response β) × σ

/-- The function `GetRevisionsByRanges` of `revision.go`. The result is `none`
for a run-time panic, otherwise the returned pair (`RevisionRanges`, error) and
the transport state. -/
def GetRevisionsByRanges {σ : Type} (conn : Connection σ RevisionRanges) (s : σ)
    (dbName batchId collection : GoString) (minMaxRevision : List (Int × Int))
    (resume : Int) : Option ((RevisionRanges × Option GoError) × σ) :=
  match conn.NewRequest "PUT"
      [goString "_db", dbName, goString "_api/replication/revisions/ranges"] with
  | .error err => some ((RevisionRanges.zero, some (WithStack err)), s)
  | .ok req =>
    let req := req.SetQuery "batchId" batchId
    let req := req.SetQuery "collection" collection
    let withResume : Option Request :=
      if resume > 0 then
        match encodeRevision resume with
        | none => none
        | some r => some (req.SetQuery "resume" r)
      else some req
    match withResume with
    | none => none
    | some req =>
      match conn.SetBodyArray req minMaxRevision with
      | .error err => some ((RevisionRanges.zero, some (WithStack err)), s)
      | .ok req =>
        match conn.Do s req with
        | (.error err, s1) => some ((RevisionRanges.zero, some (WithStack err)), s1)
        | (.ok resp, s1) =>
          match resp.CheckStatus 200 with
          | some err => some ((RevisionRanges.zero, some (WithStack err)), s1)
          | none =>
            match resp.body with
            | .error err => some ((RevisionRanges.zero, some (WithStack err)), s1)
            | .ok ranges => some ((ranges, none), s1)

/-- How a run of the `getRanges` loop of the test ends: it returns the
accumulated revisions, the test is aborted by `require.NoError`, a run-time
panic occurs (`ranges.Ranges[0]` on an empty `Ranges`), or the step budget of
the model is used up. `done` and `failed` carry the transport state and the
number of calls of `GetRevisionsByRanges` made. -/
inductive WalkResult (σ : Type) where
  | done (revisions : List Int) (state : σ) (trips : Nat)
  | failed (err : GoError) (state : σ) (trips : Nat)
  | panicked
  | outOfFuel

/-- The `for` loop of `getRanges` in `revisions_test.go`, with a step budget:
call `GetRevisionsByRanges` with the current cursor, append `Ranges[0]`, stop
when `Resume == 0`, otherwise continue with `Resume`. -/
def getRangesLoop {σ : Type} (conn : Connection σ RevisionRanges)
    (dbName batchId collection : GoString) (rangeRevisions : List (Int × Int)) :
    Nat → σ → Int → List Int → Nat → WalkResult σ
  | 0, _, _, _, _ => .outOfFuel
  | fuel + 1, s, resume, revisions, trips =>
    match GetRevisionsByRanges conn s dbName batchId collection rangeRevisions resume with
    | none => .panicked
    | some ((_, some err), s1) => .failed err s1 (trips + 1)
    | some ((ranges, none), s1) =>
      match ranges.Ranges with
      | [] => .panicked
      | row :: _ =>
        if ranges.Resume = 0 then .done (revisions ++ row) s1 (trips + 1)
        else getRangesLoop conn dbName batchId collection rangeRevisions
          fuel s1 ranges.Resume (revisions ++ row) (trips + 1)

/-- The closure `getRanges` of `revisions_test.go`: one range
`{tree.RangeMin, tree.RangeMax}`, the cursor `resume` starting at its zero value
and `revisions` empty. -/
def getRanges {σ : Type} (conn : Connection σ RevisionRanges)
    (dbName batchId collection : GoString) (rangeMin rangeMax : Int)
    (fuel : Nat) (s : σ) : WalkResult σ :=
  getRangesLoop conn dbName batchId collection [(rangeMin, rangeMax)] fuel s 0 [] 0

/-- The number of pages a remote side needs to serve the list `L` in pages of
`k` revisions: one (empty) page for the empty list, otherwise the ceiling of
`|L| / k`. -/
def pageCount (L : List Int) (k : Nat) : Nat :=
  if L.length = 0 then 1 else (L.length + k - 1) / k

/-- An example remote side, a function from the resume cursor to the reply: the
first `k` revisions of `L` that are not below the cursor, and as the next cursor
the revision after them, or 0 when none is left. -/
def pagingRemote (L : List Int) (k : Nat) (cursor : Int) : RevisionRanges :=
  let rest := L.dropWhile (fun r => decide (r < cursor))
  ⟨[rest.take k], ((rest.drop k).head?).getD 0⟩

/-- An example connection serving `pagingRemote` over the wire: it accepts every
request, reads the cursor back from the `resume` query parameter (0 when the
parameter is absent) and answers with status 200. -/
def pagingConn (L : List Int) (k : Nat) : Connection Unit RevisionRanges where
  NewRequest := fun method path => .ok ⟨method, path, [], none⟩
  SetBodyArray := fun req ranges => .ok { req with body := some (.minMax ranges) }
  SetBody := fun req list => .ok { req with body := some (.revisions list) }
  Do := fun s req =>
    let cursor : Int :=
      match req.query.lookup "resume" with
      | none => 0
      | some v => decodeRevision v
    (.ok ⟨200, ⟨"unexpected status"⟩, .ok (pagingRemote L k cursor)⟩, s)

/-- The revisions served in the example walk. -/
def exampleRevisions : List Int := [1, 5, 64, 65, 4097, 5000, 70000]

/-- The resume cursors of the example walk in pages of 3: the first revision of
the next page, and 0 after the last page. -/
def exampleCursor : Nat → Int
  | 1 => 65
  | 2 => 70000
  | _ => 0

/-! ## The tree and document requests, and a recording transport -/

/-- The struct `RevisionTreeNode`. -/
structure RevisionTreeNode where
  Hash : GoString
  Count : Int

/-- The struct `RevisionTree`. -/
structure RevisionTree where
  Version : Int
  MaxDepth : Int
  RangeMin : Int
  RangeMax : Int
  Nodes : List RevisionTreeNode

/-- The zero value `RevisionTree{}`. -/
def RevisionTree.zero : RevisionTree := ⟨0, 0, 0, 0, []⟩

/-- The function `GetRevisionTree` of `revision.go`: the returned pair
(`RevisionTree`, error) and the transport state. -/
def GetRevisionTree {σ : Type} (conn : Connection σ RevisionTree) (s : σ)
    (dbName batchId collection : GoString) : (RevisionTree × Option GoError) × σ :=
  match conn.NewRequest "GET"
      [goString "_db", dbName, goString "_api/replication/revisions/tree"] with
  | .error err => ((RevisionTree.zero, some (WithStack err)), s)
  | .ok req =>
    let req := req.SetQuery "batchId" batchId
    let req := req.SetQuery "collection" collection
    match conn.Do s req with
    | (.error err, s1) => ((RevisionTree.zero, some (WithStack err)), s1)
    | (.ok resp, s1) =>
      match resp.CheckStatus 200 with
      | some err => ((RevisionTree.zero, some (WithStack err)), s1)
      | none =>
        match resp.body with
        | .error err => ((RevisionTree.zero, some (WithStack err)), s1)
        | .ok tree => ((tree, none), s1)

/-- The `range` loop of `GetRevisionDocuments` over `arrayResponse`: each element
is given as the outcome of its `ParseBody`; the first error is returned, a parsed
document is appended to `documents`. -/
def parseDocuments {δ : Type} : List (Except GoError δ) → List δ → Except GoError (List δ)
  | [], documents => .ok documents
  | .error err :: _, _ => .error err
  | .ok document :: rest, documents => parseDocuments rest (documents ++ [document])

/-- The function `GetRevisionDocuments` of `revision.go`, for documents of a type
`δ`. The body of the response is the outcome of `ParseArrayBody`. The returned
slice is `none` for the `nil` slice. -/
def GetRevisionDocuments {σ δ : Type} (conn : Connection σ (List (Except GoError δ))) (s : σ)
    (dbName batchId collection : GoString) (revisions : List Int) :
    (Option (List δ) × Option GoError) × σ :=
  match conn.NewRequest "PUT"
      [goString "_db", dbName, goString "_api/replication/revisions/documents"] with
  | .error err => ((none, some (WithStack err)), s)
  | .ok req =>
    let req := req.SetQuery "batchId" batchId
    let req := req.SetQuery "collection" collection
    match conn.SetBody req revisions with
    | .error err => ((none, some (WithStack err)), s)
    | .ok req =>
      match conn.Do s req with
      | (.error err, s1) => ((none, some (WithStack err)), s1)
      | (.ok resp, s1) =>
        match resp.CheckStatus 200 with
        | some err => ((none, some (WithStack err)), s1)
        | none =>
          match resp.body with
          | .error err => ((none, some (WithStack err)), s1)
          | .ok arrayResponse =>
            match parseDocuments arrayResponse [] with
            | .error err => ((none, some (WithStack err)), s1)
            | .ok documents => ((some documents, none), s1)

/-- The connection `conn` with a record of the requests handed to `Do`, in the
order of the calls, kept next to the transport state. -/
def recording {σ β : Type} (conn : Connection σ β) : Connection (σ × List Request) β where
  NewRequest := conn.NewRequest
  SetBodyArray := conn.SetBodyArray
  SetBody := conn.SetBody
  Do := fun s req => ((conn.Do s.1 req).1, ((conn.Do s.1 req).2, s.2 ++ [req]))

/-- The request-building part of `GetRevisionTree`, up to the call of `Do`. -/
def treeRequest {σ β : Type} (conn : Connection σ β)
    (dbName batchId collection : GoString) : Except GoError Request :=
  match conn.NewRequest "GET"
      [goString "_db", dbName, goString "_api/replication/revisions/tree"] with
  | .error err => .error (WithStack err)
  | .ok req => .ok ((req.SetQuery "batchId" batchId).SetQuery "collection" collection)

/-- The request-building part of `GetRevisionsByRanges`, up to the call of `Do`;
`none` for a run-time panic. -/
def rangesRequest {σ β : Type} (conn : Connection σ β)
    (dbName batchId collection : GoString) (minMaxRevision : List (Int × Int))
    (resume : Int) : Option (Except GoError Request) :=
  match conn.NewRequest "PUT"
      [goString "_db", dbName, goString "_api/replication/revisions/ranges"] with
  | .error err => some (.error (WithStack err))
  | .ok req =>
    let req := (req.SetQuery "batchId" batchId).SetQuery "collection" collection
    let withResume : Option Request :=
      if resume > 0 then
        match encodeRevision resume with
        | none => none
        | some r => some (req.SetQuery "resume" r)
      else some req
    match withResume with
    | none => none
    | some req =>
      match conn.SetBodyArray req minMaxRevision with
      | .error err => some (.error (WithStack err))
      | .ok req => some (.ok req)

/-- The request-building part of `GetRevisionDocuments`, up to the call of `Do`. -/
def documentsRequest {σ β : Type} (conn : Connection σ β)
    (dbName batchId collection : GoString) (revisions : List Int) : Except GoError Request :=
  match conn.NewRequest "PUT"
      [goString "_db", dbName, goString "_api/replication/revisions/documents"] with
  | .error err => .error (WithStack err)
  | .ok req =>
    match conn.SetBody ((req.SetQuery "batchId" batchId).SetQuery "collection" collection)
        revisions with
    | .error err => .error (WithStack err)
    | .ok req => .ok req

/-- The part the three functions share after `Do`: the error of the transport,
of `CheckStatus(200)`, of parsing the body, each with the zero value `zero`;
otherwise the parsed value and a nil error. -/
def readResponse {β ρ : Type} (zero : ρ) (parse : β → Except GoError ρ) :
    Except GoError (Response β) → ρ × Option GoError
  | .error err => (zero, some (WithStack err))
  | .ok resp =>
    match resp.CheckStatus 200 with
    | some err => (zero, some (WithStack err))
    | none =>
      match resp.body with
      | .error err => (zero, some (WithStack err))
      | .ok body =>
        match parse body with
        | .error err => (zero, some (WithStack err))
        | .ok value => (value, none)

/-- The shape the three functions share: an error of the request building is
returned without a round trip, otherwise one call of `Do` and `readResponse`. -/
def sendRequest {σ β ρ : Type} (conn : Connection σ β) (s : σ)
    (built : Except GoError Request) (zero : ρ) (parse : β → Except GoError ρ) :
    (ρ × Option GoError) × σ :=
  match built with
  | .error err => ((zero, some err), s)
  | .ok req => (readResponse zero parse (conn.Do s req).1, (conn.Do s req).2)

/-- The parse of the array body of `GetRevisionDocuments`: every element parsed
in order, the result a non-nil slice. -/
def parseArray {δ : Type} (arrayResponse : List (Except GoError δ)) :
    Except GoError (Option (List δ)) :=
  match parseDocuments arrayResponse [] with
  | .error err => .error err
  | .ok documents => .ok (some documents)

/-- Failure atomicity of one call, read off its outcome `out` (returned value,
returned error, final transport state, requests handed to `Do`) for a call that
started in the state `s` with an empty record and whose request building gave
`built`:
* a non-nil error comes with the zero value, never with a partly filled one;
* at most one request is handed to the transport;
* when the request building fails, its error is returned and nothing is sent;
* otherwise exactly the built request is sent, and a transport error, a status
  other than 200 (whatever the body), a body that does not parse, each give that
  error with the zero value; only a parsed body of a status-200 response is
  returned, with a nil error. -/
def FailureAtomic {σ β ρ : Type} (conn : Connection σ β) (s : σ)
    (built : Except GoError Request) (zero : ρ) (parse : β → Except GoError ρ)
    (out : (ρ × Option GoError) × (σ × List Request)) : Prop :=
  (out.1.2 ≠ none → out.1.1 = zero) ∧
  out.2.2.length ≤ 1 ∧
  (∀ err, built = .error err → out = ((zero, some err), (s, []))) ∧
  (∀ req, built = .ok req →
    out.2 = ((conn.Do s req).2, [req]) ∧
    (∀ err, (conn.Do s req).1 = .error err → out.1 = (zero, some (WithStack err))) ∧
    (∀ resp, (conn.Do s req).1 = .ok resp → resp.StatusCode ≠ 200 →
      out.1 = (zero, some (WithStack resp.statusError))) ∧
    (∀ resp err, (conn.Do s req).1 = .ok resp → resp.StatusCode = 200 →
      resp.body = .error err → out.1 = (zero, some (WithStack err))) ∧
    (∀ resp body err, (conn.Do s req).1 = .ok resp → resp.StatusCode = 200 →
      resp.body = .ok body → parse body = .error err →
      out.1 = (zero, some (WithStack err))) ∧
    (∀ resp body value, (conn.Do s req).1 = .ok resp → resp.StatusCode = 200 →
      resp.body = .ok body → parse body = .ok value → out.1 = (value, none)))

/-- The ways a round trip fails: the transport returns the error, the response
has a status other than 200 (the error is the one `CheckStatus` reports), or the
status is 200 and the body does not parse. -/
def roundTripFails {β : Type} (r : Except GoError (Response β)) (err : GoError) : Prop :=
  r = .error err ∨
    (∃ resp, r = .ok resp ∧ resp.StatusCode ≠ 200 ∧ err = resp.statusError) ∨
    (∃ resp, r = .ok resp ∧ resp.StatusCode = 200 ∧ resp.body = .error err)

/-- An example connection that serves one page and then loses the connection:
the state counts the calls of `Do`; the first call answers with the revisions
1, 2, 3 and the cursor 4, every later call is a transport error. -/
def flakyConn : Connection Nat RevisionRanges where
  NewRequest := fun method path => .ok ⟨method, path, [], none⟩
  SetBodyArray := fun req ranges => .ok { req with body := some (.minMax ranges) }
  SetBody := fun req list => .ok { req with body := some (.revisions list) }
  Do := fun n _ =>
    if n = 0 then (.ok ⟨200, ⟨"unexpected status"⟩, .ok ⟨[[1, 2, 3]], 4⟩⟩, 1)
    else (.error ⟨"connection reset"⟩, n + 1)

/-- An example connection for `GetRevisionDocuments`, with documents given as
strings: whatever is requested, the array body holds the two documents `a` and
`b`. -/
def twoDocumentsConn : Connection Unit (List (Except GoError String)) where
  NewRequest := fun method path => .ok ⟨method, path, [], none⟩
  SetBodyArray := fun req ranges => .ok { req with body := some (.minMax ranges) }
  SetBody := fun req list => .ok { req with body := some (.revisions list) }
  Do := fun s _ => (.ok ⟨200, ⟨"unexpected status"⟩, .ok [.ok "a", .ok "b"]⟩, s)

/-- An example connection for `GetRevisionTree` that answers every request with
the status 404 and a body that would parse. -/
def notFoundConn : Connection Unit RevisionTree where
  NewRequest := fun method path => .ok ⟨method, path, [], none⟩
  SetBodyArray := fun req ranges => .ok { req with body := some (.minMax ranges) }
  SetBody := fun req list => .ok { req with body := some (.revisions list) }
  Do := fun s _ => (.ok ⟨404, ⟨"not found"⟩, .ok ⟨1, 6, 1, 9, []⟩⟩, s)

/-- The requests of the example walk over `flakyConn`: the first without a
cursor, the later ones with the cursor 4, encoded `C`. -/
def flakyRequest : Nat → Request
  | 0 => ⟨"PUT", [goString "_db", goString "revision_tree",
        goString "_api/replication/revisions/ranges"],
      [("batchId", goString "123"), ("collection", goString "revision_tree")],
      some (.minMax [(1, 9)])⟩
  | _ => ⟨"PUT", [goString "_db", goString "revision_tree",
        goString "_api/replication/revisions/ranges"],
      [("batchId", goString "123"), ("collection", goString "revision_tree"),
        ("resume", [67])],
      some (.minMax [(1, 9)])⟩

/-- The cursors of the example walk over `flakyConn`. -/
def flakyCursor : Nat → Int
  | 0 => 0
  | _ => 4

/-- The resume cursor a remote side reads from a request: the decoded `resume`
query parameter, 0 when the parameter is absent. -/
def wireCursor (req : Request) : Int :=
  match req.query.lookup "resume" with
  | none => 0
  | some v => decodeRevision v

/-- The remote side as a function `remote` from the resume cursor to the reply,
served over the wire: every request is accepted and answered with status 200 and
the reply to the cursor read from the request. -/
def wireConn (remote : Int → RevisionRanges) : Connection Unit RevisionRanges where
  NewRequest := fun method path => .ok ⟨method, path, [], none⟩
  SetBodyArray := fun req ranges => .ok { req with body := some (.minMax ranges) }
  SetBody := fun req list => .ok { req with body := some (.revisions list) }
  Do := fun s req => (.ok ⟨200, ⟨"unexpected status"⟩, .ok (remote (wireCursor req))⟩, s)

/-- An example remote side that serves the list 1, 2 in pages of one revision
with the non-zero cursor `-2^63` (the wire string `G----------`) after the first
page and the cursor 0 after the last. -/
def negativeCursorRemote (cursor : Int) : RevisionRanges :=
  if cursor = 0 then ⟨[[1]], -(2 ^ 63)⟩ else ⟨[[2]], 0⟩

/-! ## Reference notions for the codec claims -/

/-- The bytes of `s` that are not the quote, in order. -/
def nonQuoteBytes (s : List Byte) : List Byte := s.filter (fun b => decide (b ≠ quote))

/-- The positional sum of the bytes `b_0 .. b_(k-1)`: the sum over `i` of
`revisionDecodingTable[b_i] * 64^(k-1-i)`. -/
def positionalSum (bs : List Byte) : Nat :=
  ∑ i ∈ Finset.range bs.length, (decodingEntry (bs.getD i 0)).val * 64 ^ (bs.length - 1 - i)

/-- The index of a symbol in `revisionEncodingTable` (64 for a byte that is not
in the table). -/
def alphabetIndex (c : Byte) : Nat := revisionEncodingTable.indexOf c

/-- The base-64 positional value of a string of alphabet symbols, each symbol
counting as its index in the alphabet, most significant first. -/
def alphabetValue (s : List Byte) : Nat := Nat.ofDigits 64 ((s.map alphabetIndex).reverse)

/-- The canonical strings: non-empty, made solely of alphabet symbols, not
beginning with the zero symbol `-`, of positional value at most `2^63 - 1`. -/
def isCanonical (s : List Byte) : Prop :=
  s ≠ [] ∧ (∀ b ∈ s, b ∈ revisionEncodingTable) ∧ s.head? ≠ some 45 ∧
    alphabetValue s ≤ 2 ^ 63 - 1

instance (s : List Byte) : Decidable (isCanonical s) := by
  unfold isCanonical; exact inferInstance

/-- Shortlex order over the alphabet: `a` is shorter than `b`, or of the same
length and, at the first position where they differ, the symbol of `a` has the
smaller index in `revisionEncodingTable`. -/
def shortlexLt (a b : List Byte) : Prop :=
  a.length < b.length ∨
    (a.length = b.length ∧ ∃ i, i < a.length ∧ a.take i = b.take i ∧
      alphabetIndex (a.getD i 0) < alphabetIndex (b.getD i 0))

/-! ## Arithmetic of the model -/

theorem wrapInt64_isInt64 (x : Int) : isInt64 (wrapInt64 x) := by
  unfold isInt64 wrapInt64
  constructor <;> omega

theorem wrapInt64_of_isInt64 (x : Int) (h : isInt64 x) : wrapInt64 x = x := by
  unfold isInt64 at h
  unfold wrapInt64
  omega

theorem wrapInt64_step (a b : Int) :
    wrapInt64 (wrapInt64 a * 64 + b) = wrapInt64 (a * 64 + b) := by
  unfold wrapInt64
  omega

theorem land_mask (n : Nat) : n &&& 0x3f = n % 64 := by
  have h := Nat.and_pow_two_sub_one_eq_mod n 6
  simpa using h

theorem land_mask_int (n : Nat) : (Int.land (n : Int) 0x3f).toNat = n % 64 := by
  have h : Int.land (n : Int) 0x3f = ((n &&& 0x3f : Nat) : Int) := rfl
  rw [h, Int.toNat_natCast, land_mask]

theorem shiftRight_six (n : Nat) : ((n : Int) >>> (6 : Nat)) = ((n / 64 : Nat) : Int) := by
  rw [Int.shiftRight_eq_div_pow]
  norm_cast

/-! ## The encoding loop writes the base-64 digits -/

theorem encodingTable_lookup (d : Nat) (h : d < 64) :
    revisionEncodingTable[d]? = some (revisionEncodingTable.getD d 0) := by
  have hl : d < revisionEncodingTable.length := h
  simp [List.getD_eq_getElem?_getD, List.getElem?_eq_getElem hl]

theorem encodeLoop_nonpos (index : Nat) (revision : Int) (result : List Byte)
    (h : revision ≤ 0) : encodeLoop index revision result = some (index, result) := by
  cases index <;> simp [encodeLoop, not_lt.mpr h]

theorem encodedDigits_zero : encodedDigits 0 = [] := by
  simp [encodedDigits]

theorem encodedDigits_pos (n : Nat) (h : 0 < n) :
    encodedDigits n = encodedDigits (n / 64) ++ [revisionEncodingTable.getD (n % 64) 0] := by
  simp [encodedDigits, Nat.digits_def' (by norm_num : 1 < 64) h]

theorem drop_set_self (l : List Byte) (i : Nat) (c : Byte) (h : i < l.length) :
    (l.set i c).drop i = c :: l.drop (i + 1) := by
  induction l generalizing i with
  | nil => simp at h
  | cons a l ih =>
    cases i with
    | zero => simp
    | succ i =>
      simp only [List.length_cons, Nat.add_lt_add_iff_right] at h
      simpa using ih i h

theorem encodeLoop_digits (index : Nat) : ∀ (n : Nat) (result : List Byte),
    (Nat.digits 64 n).length ≤ index → index ≤ result.length →
    ∃ r, encodeLoop index (n : Int) result = some (index - (Nat.digits 64 n).length, r) ∧
      r.length = result.length ∧
      r.drop (index - (Nat.digits 64 n).length) = encodedDigits n ++ result.drop index := by
  induction index with
  | zero =>
    intro n result hlen _
    have hn : n = 0 := by
      have h0 : (Nat.digits 64 n).length = 0 := Nat.le_zero.mp hlen
      exact Nat.digits_eq_nil_iff_eq_zero.mp (List.length_eq_zero.mp h0)
    subst hn
    exact ⟨result, by simp [encodeLoop], rfl, by simp [encodedDigits_zero]⟩
  | succ i ih =>
    intro n result hlen hidx
    rcases Nat.eq_zero_or_pos n with hn | hn
    · subst hn
      exact ⟨result, by simp [encodeLoop], rfl, by simp [encodedDigits_zero]⟩
    · have hd : Nat.digits 64 n = (n % 64) :: Nat.digits 64 (n / 64) :=
        Nat.digits_def' (by norm_num) hn
      have hlen' : (Nat.digits 64 (n / 64)).length ≤ i := by
        rw [hd] at hlen
        simpa using hlen
      have hi : i < result.length := hidx
      obtain ⟨r, hr, hrl, hrd⟩ := ih (n / 64)
        (result.set i (revisionEncodingTable.getD (n % 64) 0)) hlen' (by simpa using hi.le)
      refine ⟨r, ?_, ?_, ?_⟩
      · have hpos : (0 : Int) < (n : Int) := by exact_mod_cast hn
        rw [encodeLoop]
        simp only [gt_iff_lt, hpos, if_true, land_mask_int,
          encodingTable_lookup (n % 64) (Nat.mod_lt _ (by norm_num)), shiftRight_six]
        rw [hr, hd]
        simp
      · simpa using hrl
      · rw [hd]
        simp only [List.length_cons, Nat.add_sub_add_right]
        rw [hrd, drop_set_self _ _ _ hi, encodedDigits_pos n hn]
        simp

theorem digits_length_le_of_lt_pow (n k : Nat) (h : n < 64 ^ k) :
    (Nat.digits 64 n).length ≤ k := by
  rcases Nat.eq_zero_or_pos n with hn | hn
  · subst hn; simp
  · have h1 : 64 ^ (Nat.digits 64 n).length ≤ 64 * n :=
      Nat.base_pow_length_digits_le 64 n (by norm_num) hn.ne'
    have h2 : 64 ^ (Nat.digits 64 n).length < 64 ^ (k + 1) := by
      calc 64 ^ (Nat.digits 64 n).length ≤ 64 * n := h1
        _ < 64 * 64 ^ k := by omega
        _ = 64 ^ (k + 1) := by ring
    have h3 := (Nat.pow_lt_pow_iff_right (by norm_num : 1 < 64)).mp h2
    omega

theorem lt_digits_length_of_pow_le (n k : Nat) (h : 64 ^ k ≤ n) :
    k < (Nat.digits 64 n).length := by
  have h1 : n < 64 ^ (Nat.digits 64 n).length :=
    Nat.lt_base_pow_length_digits (by norm_num)
  exact (Nat.pow_lt_pow_iff_right (by norm_num : 1 < 64)).mp (lt_of_le_of_lt h h1)

theorem digits_length_le_eleven (n : Nat) (h : n < 2 ^ 63) : (Nat.digits 64 n).length ≤ 11 := by
  apply digits_length_le_of_lt_pow
  calc n < 2 ^ 63 := h
    _ ≤ 64 ^ 11 := by norm_num

theorem encodeRevision_pos (n : Nat) (h0 : 0 < n) (h : n < 2 ^ 63) :
    encodeRevision (n : Int) = some (encodedDigits n) := by
  have hlen := digits_length_le_eleven n h
  obtain ⟨r, hr, _, hrd⟩ := encodeLoop_digits 12 n (List.replicate 12 0)
    (by omega) (by simp)
  have hne : (n : Int) ≠ 0 := by exact_mod_cast h0.ne'
  unfold encodeRevision
  rw [if_neg hne, hr]
  simp only [hrd]
  simp

theorem encodeRevision_neg (n : Int) (h : n < 0) : encodeRevision n = some [] := by
  unfold encodeRevision
  rw [if_neg (by omega), encodeLoop_nonpos _ _ _ (by omega)]
  simp

/-! ## Decoding is positional accumulation -/

theorem wrapInt64_zero : wrapInt64 0 = 0 := by
  unfold wrapInt64; norm_num

theorem decodeStep_wrap (a : Nat) (b : Byte) :
    decodeStep (wrapInt64 (a : Int)) b = wrapInt64 ((positionalStep a b : Nat) : Int) := by
  unfold decodeStep positionalStep
  by_cases hb : b = quote
  · simp [hb]
  · simp only [hb, if_false, wrapInt64_step]
    push_cast
    rfl

theorem foldl_decodeStep_wrap (s : List Byte) : ∀ a : Nat,
    s.foldl decodeStep (wrapInt64 (a : Int)) = wrapInt64 ((s.foldl positionalStep a : Nat) : Int) := by
  induction s with
  | nil => intro a; rw [List.foldl_nil, List.foldl_nil]
  | cons b s ih =>
    intro a
    rw [List.foldl_cons, List.foldl_cons, decodeStep_wrap a b]
    exact ih (positionalStep a b)

theorem decodeRevision_eq_wrap (s : List Byte) :
    decodeRevision s = wrapInt64 ((positionalValue s : Nat) : Int) := by
  have h := foldl_decodeStep_wrap s 0
  rw [Nat.cast_zero, wrapInt64_zero] at h
  unfold decodeRevision positionalValue
  exact h

theorem decodingEntry_encodingTable : ∀ d : Fin 64,
    (decodingEntry (revisionEncodingTable.getD d.val 0)).val = d.val ∧
      revisionEncodingTable.getD d.val 0 ≠ quote := by
  decide

theorem positionalStep_symbol (t d : Nat) (h : d < 64) :
    positionalStep t (revisionEncodingTable.getD d 0) = t * 64 + d := by
  have h1 := decodingEntry_encodingTable ⟨d, h⟩
  simp only at h1
  unfold positionalStep
  rw [if_neg h1.2, h1.1]

theorem foldl_positionalStep_digits (ds : List Nat) (h : ∀ d ∈ ds, d < 64) :
    (ds.reverse.map (fun d => revisionEncodingTable.getD d 0)).foldl positionalStep 0
      = Nat.ofDigits 64 ds := by
  induction ds with
  | nil => simp [Nat.ofDigits]
  | cons d ds ih =>
    have hd : d < 64 := h d (List.mem_cons_self _ _)
    have ih' := ih (fun x hx => h x (List.mem_cons_of_mem _ hx))
    simp only [List.reverse_cons, List.map_append, List.map_cons, List.map_nil,
      List.foldl_append, List.foldl_cons, List.foldl_nil]
    rw [ih', positionalStep_symbol _ _ hd, Nat.ofDigits_cons]
    ring

theorem positionalValue_encodedDigits (n : Nat) : positionalValue (encodedDigits n) = n := by
  unfold positionalValue encodedDigits
  rw [foldl_positionalStep_digits _ (fun d hd => Nat.digits_lt_base (by norm_num) hd),
    Nat.ofDigits_digits]

theorem decodeRevision_encodedDigits (n : Nat) (h : n < 2 ^ 63) :
    decodeRevision (encodedDigits n) = (n : Int) := by
  rw [decodeRevision_eq_wrap, positionalValue_encodedDigits]
  apply wrapInt64_of_isInt64
  unfold isInt64
  constructor <;> omega

theorem specAlphabet_eq : specAlphabet = revisionEncodingTable := by
  decide

theorem base64Reference_eq (n : Nat) : base64Reference n = encodedDigits n := by
  unfold base64Reference encodedDigits
  rw [specAlphabet_eq]

/-! ## Helper facts about quotes, heads and the tables -/

theorem decodeStep_quote (t : Int) : decodeStep t quote = t := by
  unfold decodeStep
  rw [if_pos rfl]

theorem decodeRevision_quoted (s : List Byte) :
    decodeRevision (quote :: (s ++ [quote])) = decodeRevision s := by
  unfold decodeRevision
  rw [List.foldl_cons, List.foldl_append, List.foldl_cons, List.foldl_nil,
    decodeStep_quote, decodeStep_quote]

theorem decodeRevision_isInt64 (s : List Byte) : isInt64 (decodeRevision s) := by
  rw [decodeRevision_eq_wrap]
  exact wrapInt64_isInt64 _

theorem decodeRevision_nil : decodeRevision [] = 0 := by
  unfold decodeRevision
  rw [List.foldl_nil]

theorem encodeRevision_zero : encodeRevision 0 = some [] := by
  unfold encodeRevision
  rw [if_pos rfl]

theorem encodedDigits_ne_nil (n : Nat) (h : 0 < n) : encodedDigits n ≠ [] := by
  rw [encodedDigits_pos n h]
  simp

theorem encodedDigits_length (n : Nat) : (encodedDigits n).length = (Nat.digits 64 n).length := by
  simp [encodedDigits]

theorem encodingTable_nonzero_symbol : ∀ d : Fin 64, d.val ≠ 0 →
    revisionEncodingTable.getD d.val 0 ≠ 45 := by
  decide

theorem encodedDigits_head (n : Nat) (h : 0 < n) : (encodedDigits n).head? ≠ some 45 := by
  have hne : Nat.digits 64 n ≠ [] := Nat.digits_ne_nil_iff_ne_zero.mpr h.ne'
  have hlast : (Nat.digits 64 n).getLast hne ≠ 0 := Nat.getLast_digit_ne_zero 64 h.ne'
  have hlt : (Nat.digits 64 n).getLast hne < 64 :=
    Nat.digits_lt_base (by norm_num) (List.getLast_mem hne)
  have hhead : (encodedDigits n).head? =
      some (revisionEncodingTable.getD ((Nat.digits 64 n).getLast hne) 0) := by
    unfold encodedDigits
    rw [List.head?_map, List.head?_reverse, List.getLast?_eq_getLast _ hne]
    rfl
  rw [hhead]
  intro hc
  exact encodingTable_nonzero_symbol ⟨_, hlt⟩ hlast (Option.some.inj hc)

set_option maxRecDepth 100000 in
theorem decodingEntry_outside_alphabet : ∀ b : Byte, b ∉ revisionEncodingTable →
    decodingEntry b = 0 := by
  decide

theorem decodingEntry_zero_symbol : decodingEntry 45 = 0 ∧ (45 : Byte) ≠ quote := by
  decide

theorem decodeStep_outside_alphabet (t : Int) (b : Byte)
    (hb : b ∉ revisionEncodingTable) (hq : b ≠ quote) :
    decodeStep t b = decodeStep t 45 := by
  unfold decodeStep
  rw [if_neg hq, if_neg decodingEntry_zero_symbol.2, decodingEntry_outside_alphabet b hb,
    decodingEntry_zero_symbol.1]

theorem int_eq_natCast_of_pos (n : Int) (h : 0 < n) : ∃ k : Nat, 0 < k ∧ n = (k : Int) := by
  refine ⟨n.toNat, ?_, ?_⟩ <;> omega

theorem encode_then_decode (n : Int) (h0 : 0 ≤ n) (h1 : n ≤ 2 ^ 63 - 1) :
    ∃ r, encodeRevision n = some r ∧ decodeRevision r = n := by
  rcases eq_or_lt_of_le h0 with hz | hpos
  · exact ⟨[], by rw [← hz, encodeRevision_zero], by rw [decodeRevision_nil, hz]⟩
  · obtain ⟨k, hk, rfl⟩ := int_eq_natCast_of_pos n hpos
    have hlt : k < 2 ^ 63 := by omega
    exact ⟨encodedDigits k, encodeRevision_pos k hk hlt, decodeRevision_encodedDigits k hlt⟩

/-! ## The walker follows the pages -/

theorem pageCount_pos (L : List Int) (k : Nat) (hk : 1 ≤ k) : 1 ≤ pageCount L k := by
  unfold pageCount
  split
  · exact le_refl 1
  · rename_i hne
    apply (Nat.le_div_iff_mul_le (by omega)).mpr
    omega

theorem length_le_pageCount_mul (L : List Int) (k : Nat) (hk : 1 ≤ k) :
    L.length ≤ pageCount L k * k := by
  unfold pageCount
  split
  · omega
  · have h1 := Nat.div_add_mod (L.length + k - 1) k
    have h2 := Nat.mod_lt (L.length + k - 1) (by omega : k > 0)
    rw [Nat.mul_comm]
    omega

/-! ## The claims -/

/-- C1: round trip. For every integer `n` with `0 ≤ n ≤ 2^63 - 1`, `encodeRevision`
returns a byte string and `decodeRevision` of that string is `n`. -/
theorem decode_encode_roundtrip (n : Int) (h0 : 0 ≤ n) (h1 : n ≤ 2 ^ 63 - 1) :
    (encodeRevision n).map decodeRevision = some n := by
  rcases eq_or_lt_of_le h0 with hz | hpos
  · rw [← hz, encodeRevision_zero, Option.map_some', decodeRevision_nil]
  · obtain ⟨k, hk, rfl⟩ := int_eq_natCast_of_pos n hpos
    have hlt : k < 2 ^ 63 := by omega
    rw [encodeRevision_pos k hk hlt, Option.map_some', decodeRevision_encodedDigits k hlt]

/-- Witness for C1 at `n = 64`. -/
theorem decode_encode_roundtrip_witness :
    (encodeRevision 64).map decodeRevision = some 64 :=
  decode_encode_roundtrip 64 (by decide) (by decide)

/-- C2: JSON round trip. For every `n` with `0 ≤ n ≤ 2^63 - 1`, `MarshalJSON n`
returns the quote, the bytes of `encodeRevision n`, the quote, with a nil error
(the two quote bytes for `n = 0`), and `UnmarshalJSON` of those bytes sets the
receiver, whatever it held, back to `n` with a nil error. -/
theorem marshalJSON_roundtrip (n : Int) (h0 : 0 ≤ n) (h1 : n ≤ 2 ^ 63 - 1) :
    ∃ r, encodeRevision n = some r ∧
      MarshalJSON n = some (quote :: (r ++ [quote]), none) ∧
      (n = 0 → MarshalJSON n = some ([quote, quote], none)) ∧
      ∀ m, UnmarshalJSON m (quote :: (r ++ [quote])) = (n, none) := by
  have hrt := encode_then_decode n h0 h1
  obtain ⟨r, hr, hd⟩ := hrt
  refine ⟨r, hr, ?_, ?_, ?_⟩
  · unfold MarshalJSON
    by_cases hz : n = 0
    · subst hz
      rw [encodeRevision_zero] at hr
      cases Option.some.inj hr
      rw [if_pos rfl]
      rfl
    · rw [if_neg hz, hr]
      rfl
  · intro hz
    unfold MarshalJSON
    rw [if_pos hz]
  · intro m
    unfold UnmarshalJSON
    rw [decodeRevision_quoted, hd]

/-- Witness for C2 at `n = 64`. -/
theorem marshalJSON_roundtrip_witness :
    ∃ r, encodeRevision 64 = some r ∧
      MarshalJSON 64 = some (quote :: (r ++ [quote]), none) ∧
      ((64 : Int) = 0 → MarshalJSON 64 = some ([quote, quote], none)) ∧
      ∀ m, UnmarshalJSON m (quote :: (r ++ [quote])) = (64, none) :=
  marshalJSON_roundtrip 64 (by decide) (by decide)

/-- C3: zero form. `encodeRevision 0` is the empty byte string and
`decodeRevision` of the empty byte string is 0. -/
theorem zero_form : encodeRevision 0 = some [] ∧ decodeRevision [] = 0 :=
  ⟨encodeRevision_zero, decodeRevision_nil⟩

/-- C4, as stated, fails: the negative revision `-1` is not 0 and its encoding
is the empty string. -/
theorem encode_empty_iff_zero_fails :
    ¬ (encodeRevision (-1) = some [] ↔ (-1 : Int) = 0) := by
  decide

/-- C4, amended: for every `int64` value `n`, `encodeRevision n` is the empty
string exactly when `n ≤ 0`; so among the values `0 ≤ n`, zero is the only one
with an empty encoding. -/
theorem encode_empty_iff_nonpos (n : Int) (h : isInt64 n) :
    encodeRevision n = some [] ↔ n ≤ 0 := by
  constructor
  · intro he
    by_contra hpos
    obtain ⟨k, hk, rfl⟩ := int_eq_natCast_of_pos n (by omega)
    have hlt : k < 2 ^ 63 := by
      have := h.2
      omega
    rw [encodeRevision_pos k hk hlt] at he
    exact encodedDigits_ne_nil k hk (Option.some.inj he)
  · intro hle
    rcases eq_or_lt_of_le hle with hz | hneg
    · rw [hz, encodeRevision_zero]
    · exact encodeRevision_neg n hneg

/-- Witness for the amended C4 at `n = -1`. -/
theorem encode_empty_iff_nonpos_witness :
    encodeRevision (-1) = some [] ↔ (-1 : Int) ≤ 0 :=
  encode_empty_iff_nonpos (-1) (by decide)

/-- C5: quoted and raw wire forms decode alike. For every byte string `s`,
decoding `s` between two quotes gives `decodeRevision s`, and `UnmarshalJSON`
on the quoted text and `UnmarshalVPack` on a string slice holding `s` set the
receiver to the same value with a nil error, whatever the receivers held. -/
theorem quoted_raw_same (s : List Byte) (n m : Int) :
    decodeRevision (quote :: (s ++ [quote])) = decodeRevision s ∧
      UnmarshalJSON n (quote :: (s ++ [quote])) = UnmarshalVPack m ⟨.ok s⟩ := by
  refine ⟨decodeRevision_quoted s, ?_⟩
  unfold UnmarshalJSON UnmarshalVPack
  rw [decodeRevision_quoted]

/-- C6: the encoding is the base-64 reference. For every `n` with
`1 ≤ n ≤ 2^63 - 1`, `encodeRevision n` is the base-64 digit string of `n`, most
significant digit first, digit `d` written as the `d`-th symbol of the alphabet
`-`, `_`, `A`..`Z`, `a`..`z`, `0`..`9`; it has exactly `k` symbols when
`64^(k-1) ≤ n < 64^k`. -/
theorem encode_eq_base64Reference (n : Int) (h1 : 1 ≤ n) (h2 : n ≤ 2 ^ 63 - 1) :
    encodeRevision n = some (base64Reference n.toNat) ∧
      ∀ k : Nat, 64 ^ (k - 1) ≤ n.toNat → n.toNat < 64 ^ k →
        (base64Reference n.toNat).length = k := by
  obtain ⟨m, hm, rfl⟩ := int_eq_natCast_of_pos n (by omega)
  have hlt : m < 2 ^ 63 := by omega
  rw [Int.toNat_natCast, base64Reference_eq]
  refine ⟨encodeRevision_pos m hm hlt, ?_⟩
  intro k hlo hhi
  rw [encodedDigits_length]
  have hle := digits_length_le_of_lt_pow m k hhi
  have hgt := lt_digits_length_of_pow_le m (k - 1) hlo
  omega

/-- Witness for C6 at `n = 1` and `n = 64`: the encodings are `_` and `_-`, the
latter of 2 symbols. -/
theorem encode_eq_base64Reference_witness :
    encodeRevision 1 = some [95] ∧ encodeRevision 64 = some [95, 45] ∧
      (base64Reference 64).length = 2 := by
  have h1 := encode_eq_base64Reference 1 (by decide) (by decide)
  have h64 := encode_eq_base64Reference 64 (by decide) (by decide)
  refine ⟨?_, ?_, h64.2 2 (by decide) (by decide)⟩
  · rw [h1.1]
    show some (base64Reference 1) = some [95]
    norm_num [base64Reference, specAlphabet]
  · rw [h64.1]
    show some (base64Reference 64) = some [95, 45]
    norm_num [base64Reference, specAlphabet]

/-- C7: shortest form. For every `int64` value `n`, `encodeRevision n` returns a
string that does not begin with the zero symbol `-` (so it never is the single
symbol `-`), and for `n = 0` that string is empty. -/
theorem encode_no_leading_zero_symbol (n : Int) (h : isInt64 n) :
    ∃ s, encodeRevision n = some s ∧ s.head? ≠ some 45 ∧ s ≠ [45] ∧ (n = 0 → s = []) := by
  have key : ∃ s, encodeRevision n = some s ∧ s.head? ≠ some 45 ∧ (n = 0 → s = []) := by
    rcases lt_trichotomy n 0 with hneg | hz | hpos
    · exact ⟨[], encodeRevision_neg n hneg, by simp, fun _ => rfl⟩
    · exact ⟨[], by rw [hz, encodeRevision_zero], by simp, fun _ => rfl⟩
    · obtain ⟨k, hk, rfl⟩ := int_eq_natCast_of_pos n hpos
      have hlt : k < 2 ^ 63 := by
        have := h.2
        omega
      refine ⟨encodedDigits k, encodeRevision_pos k hk hlt, encodedDigits_head k hk, ?_⟩
      intro hz
      omega
  obtain ⟨s, hs, hh, hz⟩ := key
  refine ⟨s, hs, hh, ?_, hz⟩
  intro hc
  apply hh
  rw [hc]
  rfl

/-- Witness for C7 at `n = 64`. -/
theorem encode_no_leading_zero_symbol_witness :
    ∃ s, encodeRevision 64 = some s ∧ s.head? ≠ some 45 ∧ s ≠ [45] ∧
      ((64 : Int) = 0 → s = []) :=
  encode_no_leading_zero_symbol 64 (by decide)

/-- C8, as stated, fails: the quote byte is not one of the 64 alphabet symbols,
and between the non-empty strings `_` and `_` it is skipped instead of taking a
digit position: the result is 65, where `_-_` decodes to 4097. -/
theorem permissive_decode_fails :
    ¬ (∀ (b : Byte) (p q : List Byte), b ∉ revisionEncodingTable → p ≠ [] → q ≠ [] →
        decodeRevision (p ++ [b] ++ q) = decodeRevision (p ++ [45] ++ q)) := by
  intro h
  have hc := h quote [95] [95] (by decide) (by decide) (by decide)
  revert hc
  decide

/-- C8, amended: for every byte `b` that is neither one of the 64 alphabet
symbols nor the quote, and all byte strings `p` and `q`, decoding `p ++ [b] ++ q`
gives what decoding `p ++ ['-'] ++ q` gives: the byte is the digit 0 in its
position. -/
theorem permissive_decode (b : Byte) (p q : List Byte)
    (hb : b ∉ revisionEncodingTable) (hq : b ≠ quote) :
    decodeRevision (p ++ [b] ++ q) = decodeRevision (p ++ [45] ++ q) := by
  unfold decodeRevision
  rw [List.foldl_append, List.foldl_append, List.foldl_append, List.foldl_append,
    List.foldl_cons, List.foldl_cons, List.foldl_nil, List.foldl_nil,
    decodeStep_outside_alphabet _ b hb hq]

/-- Witness for the amended C8: the byte `!` between `_` and `_`. -/
theorem permissive_decode_witness :
    decodeRevision ([95] ++ [33] ++ [95]) = decodeRevision ([95] ++ [45] ++ [95]) :=
  permissive_decode 33 [95] [95] (by decide) (by decide)

/-- C9: decoding never signals an error. For every input byte sequence and
every previous value of the receiver, `UnmarshalJSON` returns a nil error and
sets the receiver to `decodeRevision input`, which is an `int64` value;
`decodeRevision` is a total function. -/
theorem unmarshalJSON_never_fails (n : Int) (input : List Byte) :
    UnmarshalJSON n input = (decodeRevision input, none) ∧
      isInt64 (decodeRevision input) :=
  ⟨rfl, decodeRevision_isInt64 input⟩

/-! ## Quotes, positional sums and the last eleven bytes -/

theorem foldl_decodeStep_nonQuote (s : List Byte) : ∀ t : Int,
    s.foldl decodeStep t = (nonQuoteBytes s).foldl decodeStep t := by
  induction s with
  | nil => intro t; rfl
  | cons b s ih =>
    intro t
    unfold nonQuoteBytes at ih ⊢
    by_cases hb : b = quote
    · rw [List.foldl_cons, hb, decodeStep_quote, List.filter_cons_of_neg (by simp), ih]
    · rw [List.foldl_cons, List.filter_cons_of_pos (by simpa using hb), List.foldl_cons, ih]

theorem decodeRevision_nonQuote (s : List Byte) :
    decodeRevision s = decodeRevision (nonQuoteBytes s) := by
  unfold decodeRevision
  exact foldl_decodeStep_nonQuote s 0

theorem nonQuoteBytes_ne_quote (s : List Byte) : ∀ b ∈ nonQuoteBytes s, b ≠ quote := by
  intro b hb
  unfold nonQuoteBytes at hb
  simpa using (List.mem_filter.mp hb).2

theorem foldl_positionalStep_shift (q : List Byte) (hq : ∀ b ∈ q, b ≠ quote) : ∀ a : Nat,
    q.foldl positionalStep a = a * 64 ^ q.length + q.foldl positionalStep 0 := by
  induction q with
  | nil => intro a; simp
  | cons b q ih =>
    intro a
    have hb : b ≠ quote := hq b (List.mem_cons_self _ _)
    have ih1 := ih (fun x hx => hq x (List.mem_cons_of_mem _ hx))
    rw [List.foldl_cons, List.foldl_cons, ih1 (positionalStep a b), ih1 (positionalStep 0 b)]
    unfold positionalStep
    rw [if_neg hb, if_neg hb, List.length_cons]
    ring

theorem positionalValue_snoc (bs : List Byte) (b : Byte) (hb : b ≠ quote) :
    positionalValue (bs ++ [b]) = positionalValue bs * 64 + (decodingEntry b).val := by
  unfold positionalValue
  rw [List.foldl_append, List.foldl_cons, List.foldl_nil]
  unfold positionalStep
  rw [if_neg hb]

theorem positionalSum_snoc (bs : List Byte) (b : Byte) :
    positionalSum (bs ++ [b]) = positionalSum bs * 64 + (decodingEntry b).val := by
  unfold positionalSum
  rw [List.length_append, List.length_singleton, Finset.sum_range_succ, Finset.sum_mul]
  congr 1
  · apply Finset.sum_congr rfl
    intro i hi
    have hlt : i < bs.length := Finset.mem_range.mp hi
    rw [List.getD_append _ _ _ _ hlt, mul_assoc, ← pow_succ]
    congr 2
    omega
  · rw [List.getD_append_right _ _ _ _ (le_refl _)]
    simp

theorem positionalValue_eq_sum (bs : List Byte) (h : ∀ b ∈ bs, b ≠ quote) :
    positionalValue bs = positionalSum bs := by
  induction bs using List.reverseRecOn with
  | nil => simp [positionalValue, positionalSum]
  | append_singleton bs b ih =>
    have hb : b ≠ quote := h b (by simp)
    rw [positionalValue_snoc bs b hb, positionalSum_snoc,
      ih (fun x hx => h x (List.mem_append_left _ hx))]

theorem decodeRevision_eq_wrap_sum (s : List Byte) :
    decodeRevision s = wrapInt64 ((positionalSum (nonQuoteBytes s) : Nat) : Int) := by
  rw [decodeRevision_nonQuote, decodeRevision_eq_wrap,
    positionalValue_eq_sum _ (nonQuoteBytes_ne_quote s)]

theorem wrapInt64_modEq (x : Int) : wrapInt64 x ≡ x [ZMOD 2 ^ 64] := by
  unfold Int.ModEq wrapInt64
  omega

theorem wrapInt64_high (v : Nat) (h1 : 2 ^ 63 ≤ v) (h2 : v < 2 ^ 64) :
    wrapInt64 (v : Int) = (v : Int) - 2 ^ 64 := by
  unfold wrapInt64
  omega

theorem wrapInt64_drop_high (a v : Nat) :
    wrapInt64 ((a * 64 ^ 11 + v : Nat) : Int) = wrapInt64 (v : Int) := by
  unfold wrapInt64
  push_cast
  norm_num
  omega

theorem decodeRevision_append_eleven (p q : List Byte) (hq : ∀ b ∈ q, b ≠ quote)
    (hlen : q.length = 11) : decodeRevision (p ++ q) = decodeRevision q := by
  rw [decodeRevision_eq_wrap, decodeRevision_eq_wrap]
  unfold positionalValue
  rw [List.foldl_append, foldl_positionalStep_shift q hq, hlen]
  exact wrapInt64_drop_high _ _

/-! ## The buffer of the encoding loop -/

theorem take_set_of_le (l : List Byte) (c : Byte) (m n : Nat) (h : m ≤ n) :
    (l.set n c).take m = l.take m := by
  apply List.ext_getElem?
  intro i
  rw [List.getElem?_take, List.getElem?_take]
  split
  · rw [List.getElem?_set_ne (by omega)]
  · rfl

theorem encodeLoop_prefix (index : Nat) : ∀ (revision : Int) (result : List Byte)
    (i : Nat) (r : List Byte), encodeLoop index revision result = some (i, r) →
    i ≤ index ∧ r.length = result.length ∧ r.take i = result.take i := by
  induction index with
  | zero =>
    intro revision result i r h
    rw [encodeLoop] at h
    split at h
    · cases h
    · cases h
      exact ⟨le_refl _, rfl, rfl⟩
  | succ index ih =>
    intro revision result i r h
    rw [encodeLoop] at h
    split at h
    · split at h
      · cases h
      · rename_i c _
        obtain ⟨h1, h2, h3⟩ := ih _ _ i r h
        refine ⟨Nat.le_succ_of_le h1, ?_, ?_⟩
        · rw [h2, List.length_set]
        · rw [h3, take_set_of_le _ _ _ _ h1]
    · cases h
      exact ⟨le_refl _, rfl, rfl⟩

theorem digits_length_pos (n : Nat) (h : 0 < n) : 1 ≤ (Nat.digits 64 n).length := by
  have hne : Nat.digits 64 n ≠ [] := Nat.digits_ne_nil_iff_ne_zero.mpr h.ne'
  exact List.length_pos.mpr hne

/-! ## The claims on the codec, continued -/

/-- C15: decoding is positional accumulation in 64-bit two's-complement
arithmetic. For every byte string `s` with non-quote bytes `b_0 .. b_(k-1)`,
`decodeRevision s` is the `int64` value congruent modulo `2^64` to the sum of
`revisionDecodingTable[b_i] * 64^(k-1-i)`; when that sum `v` has
`2^63 ≤ v < 2^64` the result is `v - 2^64`; and only the last 11 non-quote
bytes of `s` influence the result. -/
theorem decode_positional_twos_complement (s : List Byte) :
    isInt64 (decodeRevision s) ∧
      decodeRevision s ≡ ((positionalSum (nonQuoteBytes s) : Nat) : Int) [ZMOD 2 ^ 64] ∧
      (2 ^ 63 ≤ positionalSum (nonQuoteBytes s) → positionalSum (nonQuoteBytes s) < 2 ^ 64 →
        decodeRevision s = ((positionalSum (nonQuoteBytes s) : Nat) : Int) - 2 ^ 64) ∧
      decodeRevision s
        = decodeRevision ((nonQuoteBytes s).drop ((nonQuoteBytes s).length - 11)) := by
  refine ⟨decodeRevision_isInt64 s, ?_, ?_, ?_⟩
  · rw [decodeRevision_eq_wrap_sum]
    exact wrapInt64_modEq _
  · intro h1 h2
    rw [decodeRevision_eq_wrap_sum]
    exact wrapInt64_high _ h1 h2
  · rw [decodeRevision_nonQuote s]
    rcases Nat.lt_or_ge 11 (nonQuoteBytes s).length with hlong | hshort
    · have hsplit := List.take_append_drop ((nonQuoteBytes s).length - 11) (nonQuoteBytes s)
      have hq : ∀ b ∈ (nonQuoteBytes s).drop ((nonQuoteBytes s).length - 11), b ≠ quote :=
        fun b hb => nonQuoteBytes_ne_quote s b (List.mem_of_mem_drop hb)
      have hlen : ((nonQuoteBytes s).drop ((nonQuoteBytes s).length - 11)).length = 11 := by
        rw [List.length_drop]
        omega
      have hd := decodeRevision_append_eleven
        ((nonQuoteBytes s).take ((nonQuoteBytes s).length - 11)) _ hq hlen
      rw [hsplit] at hd
      exact hd
    · have h0 : (nonQuoteBytes s).length - 11 = 0 := by omega
      rw [h0, List.drop_zero]

set_option maxRecDepth 100000 in
/-- Witness for C15: the string `G----------` between quotes has the positional
sum `2^63` and decodes to `-2^63`; a twelfth leading symbol changes nothing. -/
theorem decode_positional_twos_complement_witness :
    decodeRevision [34, 71, 45, 45, 45, 45, 45, 45, 45, 45, 45, 45, 34] = -(2 ^ 63) ∧
      decodeRevision [57, 71, 45, 45, 45, 45, 45, 45, 45, 45, 45, 45]
        = decodeRevision [71, 45, 45, 45, 45, 45, 45, 45, 45, 45, 45] := by
  have h := decode_positional_twos_complement
    [34, 71, 45, 45, 45, 45, 45, 45, 45, 45, 45, 45, 34]
  have h2 := decode_positional_twos_complement
    [57, 71, 45, 45, 45, 45, 45, 45, 45, 45, 45, 45]
  have hv : positionalSum (nonQuoteBytes
      [34, 71, 45, 45, 45, 45, 45, 45, 45, 45, 45, 45, 34]) = 2 ^ 63 := by decide
  constructor
  · rw [h.2.2.1 (by rw [hv]) (by rw [hv]; norm_num), hv]
    norm_num
  · exact h2.2.2.2

/-- C16: buffer safety and termination of the encoding. For every `int64` input
the loop of `encodeRevision` ends without a run-time panic with the write index
between 1 and 12: it has run `12 - index ≤ 11` times, has written only at the
places `index .. 11` of the 12-byte buffer (the bytes before `index`, place 0
among them, are untouched), and the returned slice has at most 11 bytes; for a
negative input the loop body never runs (`index` stays 12) and the result is
empty. -/
theorem encode_buffer_safe (n : Int) (h : isInt64 n) :
    ∃ index result, encodeLoop 12 n (List.replicate 12 0) = some (index, result) ∧
      1 ≤ index ∧ index ≤ 12 ∧ 12 - index ≤ 11 ∧ result.length = 12 ∧
      result.take index = List.replicate index 0 ∧
      (∃ s, encodeRevision n = some s ∧ s.length ≤ 11 ∧ (n ≠ 0 → s = result.drop index)) ∧
      (n < 0 → index = 12 ∧ encodeRevision n = some []) := by
  rcases le_or_lt n 0 with hle | hpos
  · have hloop := encodeLoop_nonpos 12 n (List.replicate 12 0) hle
    refine ⟨12, List.replicate 12 0, hloop, by omega, le_refl _, by omega, by simp, by simp,
      ?_, ?_⟩
    · rcases eq_or_lt_of_le hle with hz | hneg
      · exact ⟨[], by rw [hz, encodeRevision_zero], by simp, fun hne => absurd hz hne⟩
      · exact ⟨[], encodeRevision_neg n hneg, by simp, fun _ => by simp⟩
    · intro hneg
      exact ⟨rfl, encodeRevision_neg n hneg⟩
  · obtain ⟨k, hk, rfl⟩ := int_eq_natCast_of_pos n hpos
    have hlt : k < 2 ^ 63 := by
      have := h.2
      omega
    have hlen := digits_length_le_eleven k hlt
    have hlen1 := digits_length_pos k hk
    obtain ⟨r, hr, hrl, hrd⟩ := encodeLoop_digits 12 k (List.replicate 12 0)
      (by omega) (by simp)
    obtain ⟨_, _, hpre⟩ := encodeLoop_prefix 12 _ _ _ _ hr
    refine ⟨12 - (Nat.digits 64 k).length, r, hr, by omega, by omega, by omega,
      by simpa using hrl, ?_, ?_, ?_⟩
    · rw [hpre, List.take_replicate]
      congr 1
      omega
    · refine ⟨encodedDigits k, encodeRevision_pos k hk hlt, ?_, ?_⟩
      · rw [encodedDigits_length]
        exact hlen
      · intro _
        rw [hrd]
        simp
    · intro hneg
      omega

/-- Witness for C16 at `n = 2^63 - 1`, the `int64` value with the longest
encoding: the loop ends with `index = 1`. -/
theorem encode_buffer_safe_witness :
    ∃ index result, encodeLoop 12 (2 ^ 63 - 1) (List.replicate 12 0) = some (index, result) ∧
      1 ≤ index ∧ index ≤ 12 ∧ 12 - index ≤ 11 ∧ result.length = 12 ∧
      result.take index = List.replicate index 0 ∧
      (∃ s, encodeRevision (2 ^ 63 - 1) = some s ∧ s.length ≤ 11 ∧
        ((2 ^ 63 - 1 : Int) ≠ 0 → s = result.drop index)) ∧
      ((2 ^ 63 - 1 : Int) < 0 → index = 12 ∧ encodeRevision (2 ^ 63 - 1) = some []) :=
  encode_buffer_safe (2 ^ 63 - 1) (by decide)

/-- C18: every quote byte is skipped, wherever it stands. For every byte string
`s`, `decodeRevision s` is `decodeRevision` of `s` with all quote bytes removed;
in particular a quote at any single position can be dropped. -/
theorem decode_skips_every_quote (s : List Byte) :
    decodeRevision s = decodeRevision (nonQuoteBytes s) ∧
      quote ∉ nonQuoteBytes s ∧
      ∀ p q : List Byte, p ++ quote :: q = s → decodeRevision s = decodeRevision (p ++ q) := by
  refine ⟨decodeRevision_nonQuote s, fun hmem => nonQuoteBytes_ne_quote s quote hmem rfl, ?_⟩
  intro p q hs
  rw [← hs, decodeRevision_nonQuote (p ++ quote :: q), decodeRevision_nonQuote (p ++ q)]
  unfold nonQuoteBytes
  rw [List.filter_append, List.filter_append, List.filter_cons_of_neg (by simp)]

set_option maxRecDepth 100000 in
/-- C20: the decoding table is the inverse of the encoding table. The encoding
table has 64 pairwise distinct entries, the decoding table has 256 entries,
`revisionDecodingTable[revisionEncodingTable[i]] = i` for every `i` in `0..63`,
and `revisionDecodingTable[b] = 0` for every byte `b` outside the 64 symbols. -/
theorem decodingTable_inverse :
    revisionEncodingTable.length = 64 ∧ revisionDecodingTable.length = 256 ∧
      revisionEncodingTable.Nodup ∧
      (∀ i : Fin 64, (decodingEntry (revisionEncodingTable.getD i.val 0)).val = i.val) ∧
      (∀ b : Byte, b ∉ revisionEncodingTable → decodingEntry b = 0) :=
  ⟨rfl, rfl, by decide, fun i => (decodingEntry_encodingTable i).1,
    decodingEntry_outside_alphabet⟩

/-! ## Canonical strings and the order of encodings -/

set_option maxRecDepth 100000 in
theorem alphabet_symbol_facts : ∀ b : Byte, b ∈ revisionEncodingTable →
    alphabetIndex b = (decodingEntry b).val ∧
      revisionEncodingTable.getD (alphabetIndex b) 0 = b ∧
      alphabetIndex b < 64 ∧ (b ≠ 45 → alphabetIndex b ≠ 0) := by
  decide

set_option maxRecDepth 100000 in
theorem alphabetIndex_symbol : ∀ d : Fin 64,
    alphabetIndex (revisionEncodingTable.getD d.val 0) = d.val ∧
      revisionEncodingTable.getD d.val 0 ∈ revisionEncodingTable := by
  decide

theorem map_symbol_index (s : List Byte) (h : ∀ b ∈ s, b ∈ revisionEncodingTable) :
    (s.map alphabetIndex).map (fun d => revisionEncodingTable.getD d 0) = s := by
  induction s with
  | nil => rfl
  | cons b s ih =>
    rw [List.map_cons, List.map_cons, ih (fun x hx => h x (List.mem_cons_of_mem _ hx)),
      (alphabet_symbol_facts b (h b (List.mem_cons_self _ _))).2.1]

theorem alphabetIndex_lt (s : List Byte) (h : ∀ b ∈ s, b ∈ revisionEncodingTable) :
    ∀ d ∈ (s.map alphabetIndex).reverse, d < 64 := by
  intro d hd
  rw [List.mem_reverse, List.mem_map] at hd
  obtain ⟨b, hb, rfl⟩ := hd
  exact (alphabet_symbol_facts b (h b hb)).2.2.1

theorem positionalValue_eq_alphabetValue (s : List Byte)
    (h : ∀ b ∈ s, b ∈ revisionEncodingTable) : positionalValue s = alphabetValue s := by
  have hfold := foldl_positionalStep_digits (s.map alphabetIndex).reverse (alphabetIndex_lt s h)
  rw [List.reverse_reverse, map_symbol_index s h] at hfold
  unfold positionalValue alphabetValue
  exact hfold

theorem digits_alphabetValue (s : List Byte) (h : isCanonical s) :
    Nat.digits 64 (alphabetValue s) = (s.map alphabetIndex).reverse := by
  obtain ⟨hne, hall, hhead, _⟩ := h
  unfold alphabetValue
  apply Nat.digits_ofDigits 64 (by norm_num) _ (alphabetIndex_lt s hall)
  intro hnil
  cases s with
  | nil => exact absurd rfl hne
  | cons b s =>
    have hb : b ≠ 45 := fun hb => hhead (by rw [hb]; rfl)
    have hlast : ((List.map alphabetIndex (b :: s)).reverse).getLast hnil = alphabetIndex b := by
      simp
    rw [hlast]
    exact (alphabet_symbol_facts b (hall b (List.mem_cons_self _ _))).2.2.2 hb

theorem encodedDigits_alphabetValue (s : List Byte) (h : isCanonical s) :
    encodedDigits (alphabetValue s) = s := by
  unfold encodedDigits
  rw [digits_alphabetValue s h, List.reverse_reverse, map_symbol_index s h.2.1]

theorem alphabetValue_pos (s : List Byte) (h : isCanonical s) : 0 < alphabetValue s := by
  rcases Nat.eq_zero_or_pos (alphabetValue s) with hz | hpos
  · have hd := digits_alphabetValue s h
    rw [hz, Nat.digits_zero] at hd
    have hnil : s = [] := by
      have := congrArg List.length hd
      simp at this
      exact List.length_eq_zero.mp this.symm
    exact absurd hnil h.1
  · exact hpos

theorem decodeRevision_canonical (s : List Byte) (h : isCanonical s) :
    decodeRevision s = (alphabetValue s : Int) := by
  rw [decodeRevision_eq_wrap, positionalValue_eq_alphabetValue s h.2.1]
  apply wrapInt64_of_isInt64
  have hle := h.2.2.2
  unfold isInt64
  constructor <;> omega

theorem encodedDigits_isCanonical (n : Nat) (h0 : 0 < n) (h : n < 2 ^ 63) :
    isCanonical (encodedDigits n) := by
  have hall : ∀ b ∈ encodedDigits n, b ∈ revisionEncodingTable := by
    intro b hb
    unfold encodedDigits at hb
    rw [List.mem_map] at hb
    obtain ⟨d, hd, rfl⟩ := hb
    have hlt : d < 64 := Nat.digits_lt_base (by norm_num) (List.mem_reverse.mp hd)
    exact (alphabetIndex_symbol ⟨d, hlt⟩).2
  refine ⟨encodedDigits_ne_nil n h0, hall, encodedDigits_head n h0, ?_⟩
  rw [← positionalValue_eq_alphabetValue _ hall, positionalValue_encodedDigits]
  omega

/-- C17: encode undoes decode on canonical strings. For every canonical string
`s` (non-empty, alphabet symbols only, not beginning with `-`, positional value
at most `2^63 - 1`), `decodeRevision s` lies in `[1, 2^63 - 1]` and
`encodeRevision (decodeRevision s) = s`, so `decodeRevision` is injective on
canonical strings; and for every `n` in `[1, 2^63 - 1]`, `encodeRevision n` is a
canonical string that decodes to `n`: `encodeRevision` is a bijection from
`[1, 2^63 - 1]` onto the canonical strings. -/
theorem encode_decode_canonical (s : List Byte) (hs : isCanonical s)
    (n : Int) (h1 : 1 ≤ n) (h2 : n ≤ 2 ^ 63 - 1) :
    encodeRevision (decodeRevision s) = some s ∧
      1 ≤ decodeRevision s ∧ decodeRevision s ≤ 2 ^ 63 - 1 ∧
      (∀ t, isCanonical t → decodeRevision t = decodeRevision s → t = s) ∧
      ∃ t, encodeRevision n = some t ∧ isCanonical t ∧ decodeRevision t = n := by
  have hpos := alphabetValue_pos s hs
  have hle := hs.2.2.2
  have hlt : alphabetValue s < 2 ^ 63 := by omega
  have henc : encodeRevision (decodeRevision s) = some s := by
    rw [decodeRevision_canonical s hs, encodeRevision_pos _ hpos hlt,
      encodedDigits_alphabetValue s hs]
  refine ⟨henc, ?_, ?_, ?_, ?_⟩
  · rw [decodeRevision_canonical s hs]
    omega
  · rw [decodeRevision_canonical s hs]
    omega
  · intro t ht heq
    have hpt := alphabetValue_pos t ht
    have hlet := ht.2.2.2
    have henct : encodeRevision (decodeRevision t) = some t := by
      rw [decodeRevision_canonical t ht, encodeRevision_pos _ hpt (by omega),
        encodedDigits_alphabetValue t ht]
    rw [heq, henc] at henct
    exact (Option.some.inj henct).symm
  · obtain ⟨k, hk, rfl⟩ := int_eq_natCast_of_pos n (by omega)
    have hklt : k < 2 ^ 63 := by omega
    exact ⟨encodedDigits k, encodeRevision_pos k hk hklt, encodedDigits_isCanonical k hk hklt,
      decodeRevision_encodedDigits k hklt⟩

set_option maxRecDepth 100000 in
/-- Witness for C17 at the canonical string `_-` and `n = 64`. -/
theorem encode_decode_canonical_witness :
    encodeRevision (decodeRevision [95, 45]) = some [95, 45] ∧
      1 ≤ decodeRevision [95, 45] ∧ decodeRevision [95, 45] ≤ 2 ^ 63 - 1 ∧
      (∀ t, isCanonical t → decodeRevision t = decodeRevision [95, 45] → t = [95, 45]) ∧
      ∃ t, encodeRevision 64 = some t ∧ isCanonical t ∧ decodeRevision t = 64 :=
  encode_decode_canonical [95, 45] (by decide) 64 (by decide) (by decide)

theorem ofDigits_reverse_cons (x : Nat) (xs : List Nat) :
    Nat.ofDigits 64 (x :: xs).reverse
      = Nat.ofDigits 64 xs.reverse + 64 ^ xs.length * x := by
  rw [List.reverse_cons, Nat.ofDigits_append, Nat.ofDigits_singleton, List.length_reverse]

theorem ofDigits_reverse_lt (xs : List Nat) (h : ∀ d ∈ xs, d < 64) :
    Nat.ofDigits 64 xs.reverse < 64 ^ xs.length := by
  have hb := Nat.ofDigits_lt_base_pow_length (b := 64) (l := xs.reverse) (by norm_num)
    (fun d hd => h d (List.mem_reverse.mp hd))
  rwa [List.length_reverse] at hb

theorem first_difference_of_lt (xs : List Nat) : ∀ ys : List Nat,
    xs.length = ys.length → (∀ d ∈ xs, d < 64) → (∀ d ∈ ys, d < 64) →
    Nat.ofDigits 64 xs.reverse < Nat.ofDigits 64 ys.reverse →
    ∃ i, i < xs.length ∧ xs.take i = ys.take i ∧ xs.getD i 0 < ys.getD i 0 := by
  induction xs with
  | nil =>
    intro ys hlen _ _ hlt
    have hy : ys = [] := List.length_eq_zero.mp hlen.symm
    subst hy
    exact absurd hlt (lt_irrefl _)
  | cons x xs ih =>
    intro ys hlen hx hy hlt
    cases ys with
    | nil => simp at hlen
    | cons y ys =>
      have hlen1 : xs.length = ys.length := by simpa using hlen
      have hxs : ∀ d ∈ xs, d < 64 := fun d hd => hx d (List.mem_cons_of_mem _ hd)
      have hys : ∀ d ∈ ys, d < 64 := fun d hd => hy d (List.mem_cons_of_mem _ hd)
      rw [ofDigits_reverse_cons, ofDigits_reverse_cons, ← hlen1] at hlt
      have hA := ofDigits_reverse_lt xs hxs
      have hB := ofDigits_reverse_lt ys hys
      rw [← hlen1] at hB
      rcases lt_trichotomy x y with hlt1 | heq | hgt
      · exact ⟨0, by simp, by simp, by simpa using hlt1⟩
      · subst heq
        have hlt2 : Nat.ofDigits 64 xs.reverse < Nat.ofDigits 64 ys.reverse := by omega
        obtain ⟨i, hi, htake, hget⟩ := ih ys hlen1 hxs hys hlt2
        exact ⟨i + 1, by simpa using hi, by simp [htake], by simpa using hget⟩
      · exfalso
        have hmul : 64 ^ xs.length * (y + 1) ≤ 64 ^ xs.length * x :=
          Nat.mul_le_mul_left _ hgt
        rw [Nat.mul_succ] at hmul
        omega

theorem encodedDigits_shortlex (n m : Nat) (h : n < m) :
    shortlexLt (encodedDigits n) (encodedDigits m) := by
  unfold shortlexLt
  rw [encodedDigits_length, encodedDigits_length]
  rcases lt_or_eq_of_le (Nat.le_digits_len_le 64 n m h.le) with hlt | heq
  · exact Or.inl hlt
  · right
    refine ⟨heq, ?_⟩
    have hdn : ∀ d ∈ (Nat.digits 64 n).reverse, d < 64 :=
      fun d hd => Nat.digits_lt_base (by norm_num) (List.mem_reverse.mp hd)
    have hdm : ∀ d ∈ (Nat.digits 64 m).reverse, d < 64 :=
      fun d hd => Nat.digits_lt_base (by norm_num) (List.mem_reverse.mp hd)
    obtain ⟨i, hi, htake, hget⟩ := first_difference_of_lt (Nat.digits 64 n).reverse
      (Nat.digits 64 m).reverse (by simpa using heq) hdn hdm
      (by rw [List.reverse_reverse, List.reverse_reverse, Nat.ofDigits_digits,
        Nat.ofDigits_digits]; exact h)
    have hi1 : i < (Nat.digits 64 n).length := by simpa using hi
    have hi2 : i < (Nat.digits 64 m).length := by omega
    have hin : i < (Nat.digits 64 n).reverse.length := hi
    have him : i < (Nat.digits 64 m).reverse.length := by simpa using hi2
    refine ⟨i, hi1, ?_, ?_⟩
    · unfold encodedDigits
      rw [← List.map_take, ← List.map_take, htake]
    · rw [List.getD_eq_getElem _ _ hin, List.getD_eq_getElem _ _ him] at hget
      have han : (encodedDigits n).getD i 0
          = revisionEncodingTable.getD ((Nat.digits 64 n).reverse[i]) 0 := by
        unfold encodedDigits
        rw [List.getD_eq_getElem _ _ (by simpa using hi1), List.getElem_map]
      have ham : (encodedDigits m).getD i 0
          = revisionEncodingTable.getD ((Nat.digits 64 m).reverse[i]) 0 := by
        unfold encodedDigits
        rw [List.getD_eq_getElem _ _ (by simpa using hi2), List.getElem_map]
      rw [han, ham,
        (alphabetIndex_symbol ⟨_, hdn _ (List.getElem_mem _)⟩).1,
        (alphabetIndex_symbol ⟨_, hdm _ (List.getElem_mem _)⟩).1]
      exact hget

/-- C19: encoding preserves order in shortlex order over the alphabet. For all
`n`, `m` with `0 ≤ n < m ≤ 2^63 - 1`, either `encodeRevision n` is strictly
shorter than `encodeRevision m`, or the two have equal length and at the first
position where they differ the symbol of `encodeRevision n` has the smaller
index in `revisionEncodingTable`. -/
theorem encode_shortlex_monotone (n m : Int) (h0 : 0 ≤ n) (hnm : n < m)
    (hm : m ≤ 2 ^ 63 - 1) :
    ∃ a b, encodeRevision n = some a ∧ encodeRevision m = some b ∧ shortlexLt a b := by
  obtain ⟨k, hk, rfl⟩ := int_eq_natCast_of_pos m (by omega)
  have hklt : k < 2 ^ 63 := by omega
  rcases eq_or_lt_of_le h0 with hz | hpos
  · refine ⟨encodedDigits 0, encodedDigits k, ?_, encodeRevision_pos k hk hklt,
      encodedDigits_shortlex 0 k hk⟩
    rw [← hz, encodedDigits_zero, encodeRevision_zero]
  · obtain ⟨j, hj, rfl⟩ := int_eq_natCast_of_pos n hpos
    have hjk : j < k := by omega
    exact ⟨encodedDigits j, encodedDigits k, encodeRevision_pos j hj (by omega),
      encodeRevision_pos k hk hklt, encodedDigits_shortlex j k hjk⟩

/-- Witness for C19 at `n = 63` and `m = 64`: `9` is shorter than `_-`. -/
theorem encode_shortlex_monotone_witness :
    ∃ a b, encodeRevision 63 = some a ∧ encodeRevision 64 = some b ∧ shortlexLt a b :=
  encode_shortlex_monotone 63 64 (by decide) (by decide) (by decide)

/-! ## The three requests share one shape -/

theorem GetRevisionTree_eq {σ : Type} (conn : Connection σ RevisionTree) (s : σ)
    (dbName batchId collection : GoString) :
    GetRevisionTree conn s dbName batchId collection
      = sendRequest conn s (treeRequest conn dbName batchId collection)
          RevisionTree.zero Except.ok := by
  unfold GetRevisionTree treeRequest sendRequest readResponse
  cases conn.NewRequest "GET"
      [goString "_db", dbName, goString "_api/replication/revisions/tree"] with
  | error err => rfl
  | ok req =>
    simp only []
    rcases hdo : conn.Do s ((req.SetQuery "batchId" batchId).SetQuery "collection" collection)
      with ⟨r, s1⟩
    cases r with
    | error err => rfl
    | ok resp =>
      simp only []
      cases resp.CheckStatus 200 with
      | some err => rfl
      | none =>
        simp only []
        cases resp.body with
        | error err => rfl
        | ok tree => rfl

theorem GetRevisionsByRanges_eq {σ : Type} (conn : Connection σ RevisionRanges) (s : σ)
    (dbName batchId collection : GoString) (minMaxRevision : List (Int × Int))
    (resume : Int) :
    GetRevisionsByRanges conn s dbName batchId collection minMaxRevision resume
      = (rangesRequest conn dbName batchId collection minMaxRevision resume).map
          (fun built => sendRequest conn s built RevisionRanges.zero Except.ok) := by
  unfold GetRevisionsByRanges rangesRequest sendRequest readResponse
  cases conn.NewRequest "PUT"
      [goString "_db", dbName, goString "_api/replication/revisions/ranges"] with
  | error err => rfl
  | ok req =>
    simp only []
    generalize (if resume > 0 then
        match encodeRevision resume with
        | none => none
        | some r => some (((req.SetQuery "batchId" batchId).SetQuery "collection"
            collection).SetQuery "resume" r)
      else some ((req.SetQuery "batchId" batchId).SetQuery "collection" collection)) = w
    cases w with
    | none => rfl
    | some req1 =>
      simp only []
      cases conn.SetBodyArray req1 minMaxRevision with
      | error err => rfl
      | ok req2 =>
        simp only [Option.map_some']
        rcases hdo : conn.Do s req2 with ⟨r, s1⟩
        cases r with
        | error err => rfl
        | ok resp =>
          simp only []
          cases resp.CheckStatus 200 with
          | some err => rfl
          | none =>
            simp only []
            cases resp.body with
            | error err => rfl
            | ok ranges => rfl

theorem GetRevisionDocuments_eq {σ δ : Type} (conn : Connection σ (List (Except GoError δ)))
    (s : σ) (dbName batchId collection : GoString) (revisions : List Int) :
    GetRevisionDocuments conn s dbName batchId collection revisions
      = sendRequest conn s (documentsRequest conn dbName batchId collection revisions)
          none parseArray := by
  unfold GetRevisionDocuments documentsRequest sendRequest readResponse parseArray
  cases conn.NewRequest "PUT"
      [goString "_db", dbName, goString "_api/replication/revisions/documents"] with
  | error err => rfl
  | ok req =>
    simp only []
    cases conn.SetBody ((req.SetQuery "batchId" batchId).SetQuery "collection" collection)
        revisions with
    | error err => rfl
    | ok req2 =>
      simp only []
      rcases hdo : conn.Do s req2 with ⟨r, s1⟩
      cases r with
      | error err => rfl
      | ok resp =>
        simp only []
        cases resp.CheckStatus 200 with
        | some err => rfl
        | none =>
          simp only []
          cases resp.body with
          | error err => rfl
          | ok arrayResponse =>
            simp only []
            cases parseDocuments arrayResponse [] with
            | error err => rfl
            | ok documents => rfl

theorem readResponse_atomic {β ρ : Type} (zero : ρ) (parse : β → Except GoError ρ)
    (r : Except GoError (Response β)) :
    (readResponse zero parse r).2 ≠ none → (readResponse zero parse r).1 = zero := by
  unfold readResponse
  cases r with
  | error err => intro _; rfl
  | ok resp =>
    simp only []
    cases resp.CheckStatus 200 with
    | some err => intro _; rfl
    | none =>
      simp only []
      cases resp.body with
      | error err => intro _; rfl
      | ok body =>
        simp only []
        cases parse body with
        | error err => intro _; rfl
        | ok value => intro h; exact absurd rfl h

theorem readResponse_status {β ρ : Type} (zero : ρ) (parse : β → Except GoError ρ)
    (resp : Response β) (h : resp.StatusCode ≠ 200) :
    readResponse zero parse (.ok resp) = (zero, some (WithStack resp.statusError)) := by
  unfold readResponse
  simp only [Response.CheckStatus, if_neg h]

theorem readResponse_ok {β ρ : Type} (zero : ρ) (parse : β → Except GoError ρ)
    (resp : Response β) (h : resp.StatusCode = 200) :
    readResponse zero parse (.ok resp) =
      match resp.body with
      | .error err => (zero, some (WithStack err))
      | .ok body =>
        match parse body with
        | .error err => (zero, some (WithStack err))
        | .ok value => (value, none) := by
  unfold readResponse
  simp only [Response.CheckStatus, if_pos h]

theorem sendRequest_recording {σ β ρ : Type} (conn : Connection σ β) (s : σ)
    (log : List Request) (req : Request) (zero : ρ) (parse : β → Except GoError ρ) :
    sendRequest (recording conn) (s, log) (.ok req) zero parse
      = (readResponse zero parse (conn.Do s req).1, ((conn.Do s req).2, log ++ [req])) := rfl

theorem failureAtomic_sendRequest {σ β ρ : Type} (conn : Connection σ β) (s : σ)
    (built : Except GoError Request) (zero : ρ) (parse : β → Except GoError ρ) :
    FailureAtomic conn s built zero parse
      (sendRequest (recording conn) (s, []) built zero parse) := by
  cases built with
  | error err =>
    refine ⟨fun _ => rfl, Nat.zero_le _, ?_, ?_⟩
    · intro e he
      cases he
      rfl
    · intro req hreq
      cases hreq
  | ok req =>
    rw [sendRequest_recording]
    refine ⟨readResponse_atomic zero parse _, le_refl _, ?_, ?_⟩
    · intro e he
      cases he
    · intro req1 hreq
      cases hreq
      refine ⟨rfl, ?_, ?_, ?_, ?_, ?_⟩
      · intro err herr
        simp only [herr]
        rfl
      · intro resp hresp hstatus
        simp only [hresp]
        exact readResponse_status zero parse resp hstatus
      · intro resp err hresp hstatus hbody
        simp only [hresp]
        rw [readResponse_ok zero parse resp hstatus, hbody]
      · intro resp body err hresp hstatus hbody hparse
        simp only [hresp]
        rw [readResponse_ok zero parse resp hstatus, hbody]
        simp only [hparse]
      · intro resp body value hresp hstatus hbody hparse
        simp only [hresp]
        rw [readResponse_ok zero parse resp hstatus, hbody]
        simp only [hparse]

theorem rangesRequest_isSome {σ β : Type} (conn : Connection σ β)
    (dbName batchId collection : GoString) (minMaxRevision : List (Int × Int))
    (resume : Int) (h : isInt64 resume) :
    ∃ built, rangesRequest conn dbName batchId collection minMaxRevision resume = some built := by
  unfold rangesRequest
  cases conn.NewRequest "PUT"
      [goString "_db", dbName, goString "_api/replication/revisions/ranges"] with
  | error err => exact ⟨_, rfl⟩
  | ok req =>
    simp only []
    by_cases hpos : resume > 0
    · obtain ⟨k, hk, rfl⟩ := int_eq_natCast_of_pos resume hpos
      have hlt : k < 2 ^ 63 := by
        have := h.2
        omega
      rw [if_pos hpos, encodeRevision_pos k hk hlt]
      simp only []
      cases conn.SetBodyArray _ minMaxRevision with
      | error err => exact ⟨_, rfl⟩
      | ok req2 => exact ⟨_, rfl⟩
    · rw [if_neg hpos]
      simp only []
      cases conn.SetBodyArray _ minMaxRevision with
      | error err => exact ⟨_, rfl⟩
      | ok req2 => exact ⟨_, rfl⟩

theorem parseDocuments_ok {δ : Type} (docs : List δ) : ∀ acc : List δ,
    parseDocuments (docs.map Except.ok) acc = (.ok (acc ++ docs) : Except GoError (List δ)) := by
  induction docs with
  | nil => intro acc; simp [parseDocuments]
  | cons d docs ih =>
    intro acc
    rw [List.map_cons, parseDocuments, ih]
    simp

theorem parseDocuments_error {δ : Type} (pre : List δ) (err : GoError)
    (rest : List (Except GoError δ)) : ∀ acc : List δ,
    parseDocuments (pre.map Except.ok ++ .error err :: rest) acc = .error err := by
  induction pre with
  | nil => intro acc; simp [parseDocuments]
  | cons d pre ih =>
    intro acc
    rw [List.map_cons, List.cons_append, parseDocuments, ih]

/-! ## The query of the ranges request and the aborted walk -/

theorem query_batch_collection (req0 : Request) (h : req0.query = [])
    (batchId collection : GoString) :
    ((req0.SetQuery "batchId" batchId).SetQuery "collection" collection).query
      = [("batchId", batchId), ("collection", collection)] := by
  simp [Request.SetQuery, h]

theorem query_resume (req0 : Request) (h : req0.query = [])
    (batchId collection r : GoString) :
    (((req0.SetQuery "batchId" batchId).SetQuery "collection" collection).SetQuery
        "resume" r).query
      = [("batchId", batchId), ("collection", collection), ("resume", r)] := by
  simp [Request.SetQuery, h]

theorem rangesRequest_query {σ β : Type} (conn : Connection σ β)
    (dbName batchId collection : GoString) (minMaxRevision : List (Int × Int))
    (resume : Int) (hresume : isInt64 resume) (req0 : Request)
    (hnew : conn.NewRequest "PUT"
      [goString "_db", dbName, goString "_api/replication/revisions/ranges"] = .ok req0)
    (hfresh : req0.query = [])
    (hbody : ∀ q, ∃ q1, conn.SetBodyArray q minMaxRevision = .ok q1 ∧ q1.query = q.query) :
    ∃ req, rangesRequest conn dbName batchId collection minMaxRevision resume = some (.ok req) ∧
      (resume ≤ 0 → req.query = [("batchId", batchId), ("collection", collection)]) ∧
      (0 < resume → ∃ r, encodeRevision resume = some r ∧
        req.query = [("batchId", batchId), ("collection", collection), ("resume", r)]) := by
  unfold rangesRequest
  rw [hnew]
  simp only []
  by_cases hpos : resume > 0
  · obtain ⟨k, hk, rfl⟩ := int_eq_natCast_of_pos resume hpos
    have hlt : k < 2 ^ 63 := by
      have := hresume.2
      omega
    rw [if_pos hpos, encodeRevision_pos k hk hlt]
    simp only []
    obtain ⟨q1, hq1, hquery⟩ := hbody (((req0.SetQuery "batchId" batchId).SetQuery
      "collection" collection).SetQuery "resume" (encodedDigits k))
    rw [hq1]
    refine ⟨q1, rfl, fun hle => absurd hpos (not_lt.mpr hle), fun _ => ⟨_, rfl, ?_⟩⟩
    rw [hquery, query_resume req0 hfresh]
  · rw [if_neg hpos]
    simp only []
    obtain ⟨q1, hq1, hquery⟩ := hbody ((req0.SetQuery "batchId" batchId).SetQuery
      "collection" collection)
    rw [hq1]
    refine ⟨q1, rfl, fun _ => ?_, fun h => absurd h hpos⟩
    rw [hquery, query_batch_collection req0 hfresh]

theorem range_drop_cons (j i : Nat) (h : i < j) :
    (List.range j).drop i = i :: (List.range j).drop (i + 1) := by
  rw [List.drop_eq_getElem_cons (by simpa using h), List.getElem_range]

theorem range_drop_last (j : Nat) (h : 1 ≤ j) : (List.range j).drop (j - 1) = [j - 1] := by
  rw [range_drop_cons j (j - 1) (by omega)]
  have hj : j - 1 + 1 = j := by omega
  rw [hj, List.drop_eq_nil_of_le (by simp)]

theorem GetRevisionsByRanges_recording {σ : Type} (conn : Connection σ RevisionRanges)
    (s : σ) (log : List Request) (dbName batchId collection : GoString)
    (minMaxRevision : List (Int × Int)) (resume : Int) (req : Request)
    (hreq : rangesRequest conn dbName batchId collection minMaxRevision resume
      = some (.ok req)) :
    GetRevisionsByRanges (recording conn) (s, log) dbName batchId collection
        minMaxRevision resume
      = some (readResponse RevisionRanges.zero Except.ok (conn.Do s req).1,
          ((conn.Do s req).2, log ++ [req])) := by
  have hrec : rangesRequest (recording conn) dbName batchId collection minMaxRevision resume
      = some (.ok req) := hreq
  rw [GetRevisionsByRanges_eq, hrec, Option.map_some', sendRequest_recording]

theorem readResponse_fails {β ρ : Type} (zero : ρ) (parse : β → Except GoError ρ)
    (r : Except GoError (Response β)) (err : GoError) (h : roundTripFails r err) :
    readResponse zero parse r = (zero, some err) := by
  rcases h with h | ⟨resp, h, hstatus, herr⟩ | ⟨resp, h, hstatus, hbody⟩
  · rw [h]
    rfl
  · rw [h, readResponse_status zero parse resp hstatus, herr]
    rfl
  · rw [h, readResponse_ok zero parse resp hstatus, hbody]
    rfl

theorem getRangesLoop_abort {σ : Type} (conn : Connection σ RevisionRanges)
    (dbName batchId collection : GoString) (rangeRevisions : List (Int × Int))
    (j : Nat) (st : Nat → σ) (cur : Nat → Int) (req : Nat → Request)
    (resp : Nat → Response RevisionRanges) (pages : Nat → RevisionRanges) (err : GoError)
    (hreq : ∀ i, i < j →
      rangesRequest conn dbName batchId collection rangeRevisions (cur i) = some (.ok (req i)))
    (hok : ∀ i, i + 1 < j →
      conn.Do (st i) (req i) = (.ok (resp i), st (i + 1)) ∧ (resp i).StatusCode = 200 ∧
        (resp i).body = .ok (pages i) ∧ (pages i).Ranges ≠ [] ∧
        (pages i).Resume = cur (i + 1) ∧ cur (i + 1) ≠ 0)
    (hstate : (conn.Do (st (j - 1)) (req (j - 1))).2 = st j)
    (hfail : roundTripFails (conn.Do (st (j - 1)) (req (j - 1))).1 err) :
    ∀ (fuel i : Nat) (acc : List Int) (log : List Request), i < j → j - i ≤ fuel →
      getRangesLoop (recording conn) dbName batchId collection rangeRevisions fuel
          (st i, log) (cur i) acc i
        = .failed err (st j, log ++ ((List.range j).drop i).map req) j := by
  intro fuel
  induction fuel with
  | zero =>
    intro i acc log hi hfuel
    omega
  | succ fuel ih =>
    intro i acc log hi hfuel
    rw [getRangesLoop, GetRevisionsByRanges_recording conn (st i) log dbName batchId
      collection rangeRevisions (cur i) (req i) (hreq i hi)]
    rcases Nat.lt_or_ge (i + 1) j with hlt | hge
    · obtain ⟨hdo, hstatus, hbody, hrows, hresume, hnz⟩ := hok i hlt
      rw [hdo]
      simp only []
      rw [readResponse_ok _ _ (resp i) hstatus, hbody]
      simp only []
      obtain ⟨row, rows, hrow⟩ := List.exists_cons_of_ne_nil hrows
      rw [hrow]
      simp only []
      rw [hresume, if_neg hnz, ih (i + 1) _ _ hlt (by omega), range_drop_cons j i hi]
      simp
    · have hij : i = j - 1 := by omega
      have hj1 : i + 1 = j := by omega
      rw [hij, readResponse_fails _ _ _ err hfail, hstate]
      simp only []
      rw [range_drop_last j (by omega)]
      have hj2 : j - 1 + 1 = j := by omega
      rw [hj2]
      simp

/-! ## The claims on the requests -/

/-- C13: fetcher alignment. For every list of requested revisions, when the
request is built and the transport answers it with a status-200 response whose
array body holds `m` individually parseable documents `docs`,
`GetRevisionDocuments` returns without error exactly those `m` documents in
their order (`result[i]` is the parse of the `i`-th element), whatever the
number `N` of requested revisions: aligned with the input when `m = N`, the
shorter list without an error when `m < N`. -/
theorem fetcher_alignment {σ δ : Type} (conn : Connection σ (List (Except GoError δ)))
    (s s1 : σ) (dbName batchId collection : GoString) (revisions : List Int)
    (req : Request) (resp : Response (List (Except GoError δ))) (docs : List δ)
    (hreq : documentsRequest conn dbName batchId collection revisions = .ok req)
    (hdo : conn.Do s req = (.ok resp, s1))
    (hstatus : resp.StatusCode = 200)
    (hbody : resp.body = .ok (docs.map Except.ok)) :
    ∃ result, GetRevisionDocuments conn s dbName batchId collection revisions
        = ((some result, none), s1) ∧
      result.length = docs.length ∧ (∀ i : Nat, result[i]? = docs[i]?) ∧
      (docs.length = revisions.length → result.length = revisions.length) ∧
      (docs.length < revisions.length → result.length < revisions.length) := by
  refine ⟨docs, ?_, rfl, fun _ => rfl, fun h => h, fun h => h⟩
  rw [GetRevisionDocuments_eq, hreq]
  unfold sendRequest
  simp only [hdo]
  rw [readResponse_ok _ _ resp hstatus, hbody]
  simp only [parseArray, parseDocuments_ok, List.nil_append]

/-- Witness for C13: three revisions requested from `twoDocumentsConn`, two
documents returned without an error. -/
theorem fetcher_alignment_witness :
    ∃ result, GetRevisionDocuments twoDocumentsConn () (goString "revision_tree")
        (goString "123") (goString "revision_tree") [1, 5, 64]
        = ((some result, none), ()) ∧
      result.length = ["a", "b"].length ∧ (∀ i : Nat, result[i]? = ["a", "b"][i]?) ∧
      (["a", "b"].length = [(1 : Int), 5, 64].length → result.length = [(1 : Int), 5, 64].length) ∧
      (["a", "b"].length < [(1 : Int), 5, 64].length →
        result.length < [(1 : Int), 5, 64].length) :=
  fetcher_alignment twoDocumentsConn () () (goString "revision_tree") (goString "123")
    (goString "revision_tree") [1, 5, 64]
    ⟨"PUT", [goString "_db", goString "revision_tree",
        goString "_api/replication/revisions/documents"],
      [("batchId", goString "123"), ("collection", goString "revision_tree")],
      some (.revisions [1, 5, 64])⟩
    ⟨200, ⟨"unexpected status"⟩, .ok [.ok "a", .ok "b"]⟩ ["a", "b"] rfl rfl rfl rfl

/-- C14: failure is atomic for all three operations. Run over a recording
transport from an empty record, `GetRevisionTree`, `GetRevisionsByRanges` (for an
`int64` cursor) and `GetRevisionDocuments` each satisfy `FailureAtomic`: a failed
request building, a transport error, a status other than 200 (whatever the
body), a body that does not parse (for documents: an array in which any single
element does not parse) give a non-nil error together with the zero value
(`RevisionTree{}`, `RevisionRanges{}`, the nil slice), never a partly filled
one, and each call hands at most one request to the transport. -/
theorem failure_is_atomic {σT σR σD δ : Type}
    (treeConn : Connection σT RevisionTree) (sT : σT)
    (rangesConn : Connection σR RevisionRanges) (sR : σR)
    (documentsConn : Connection σD (List (Except GoError δ))) (sD : σD)
    (dbName batchId collection : GoString) (minMaxRevision : List (Int × Int))
    (resume : Int) (hresume : isInt64 resume) (revisions : List Int) :
    FailureAtomic treeConn sT (treeRequest treeConn dbName batchId collection)
        RevisionTree.zero Except.ok
        (GetRevisionTree (recording treeConn) (sT, []) dbName batchId collection) ∧
      (∃ built out,
        rangesRequest rangesConn dbName batchId collection minMaxRevision resume = some built ∧
        GetRevisionsByRanges (recording rangesConn) (sR, []) dbName batchId collection
          minMaxRevision resume = some out ∧
        FailureAtomic rangesConn sR built RevisionRanges.zero Except.ok out) ∧
      FailureAtomic documentsConn sD
        (documentsRequest documentsConn dbName batchId collection revisions)
        none parseArray
        (GetRevisionDocuments (recording documentsConn) (sD, []) dbName batchId collection
          revisions) ∧
      (∀ (pre : List δ) (err : GoError) (rest : List (Except GoError δ)),
        parseArray (pre.map Except.ok ++ .error err :: rest) = .error err) := by
  refine ⟨?_, ?_, ?_, ?_⟩
  · rw [GetRevisionTree_eq]
    exact failureAtomic_sendRequest treeConn sT _ _ _
  · obtain ⟨built, hbuilt⟩ := rangesRequest_isSome rangesConn dbName batchId collection
      minMaxRevision resume hresume
    refine ⟨built, _, hbuilt, ?_, failureAtomic_sendRequest rangesConn sR built _ _⟩
    rw [GetRevisionsByRanges_eq]
    have hrec : rangesRequest (recording rangesConn) dbName batchId collection
        minMaxRevision resume = some built := hbuilt
    rw [hrec, Option.map_some']
  · rw [GetRevisionDocuments_eq]
    exact failureAtomic_sendRequest documentsConn sD _ _ _
  · intro pre err rest
    unfold parseArray
    rw [parseDocuments_error]

/-- Witness for C14: the tree requested from `notFoundConn` (status 404 with a
body that would parse), ranges requested with cursor 4 from `flakyConn` after
its first call (a transport error), documents requested from
`twoDocumentsConn`. -/
theorem failure_is_atomic_witness :
    FailureAtomic notFoundConn () (treeRequest notFoundConn [] [] [])
        RevisionTree.zero Except.ok
        (GetRevisionTree (recording notFoundConn) ((), []) [] [] []) ∧
      (∃ built out,
        rangesRequest flakyConn [] [] [] [(1, 9)] 4 = some built ∧
        GetRevisionsByRanges (recording flakyConn) (1, []) [] [] [] [(1, 9)] 4 = some out ∧
        FailureAtomic flakyConn 1 built RevisionRanges.zero Except.ok out) ∧
      FailureAtomic twoDocumentsConn ()
        (documentsRequest twoDocumentsConn [] [] [] [1, 5, 64])
        none parseArray
        (GetRevisionDocuments (recording twoDocumentsConn) ((), []) [] [] [] [1, 5, 64]) ∧
      (∀ (pre : List String) (err : GoError) (rest : List (Except GoError String)),
        parseArray (pre.map Except.ok ++ .error err :: rest) = .error err) :=
  failure_is_atomic notFoundConn () flakyConn 1 twoDocumentsConn () [] [] [] [(1, 9)] 4
    (by decide) [1, 5, 64]

/-- C11: walker abort. For every `j ≥ 1`: when the requests of the walk are
built, the first `j - 1` round trips are answered with status 200, a parsed body
with a row 0 and a non-zero cursor, and the `j`-th round trip fails (transport
error, status other than 200, or unparseable body) with the error `err`, the
walk ends with `err` after `j` calls, for any step budget of at least `j`; the
transport has been handed exactly the `j` requests of those calls, none after
the failure and none twice. -/
theorem walker_abort {σ : Type} (conn : Connection σ RevisionRanges)
    (dbName batchId collection : GoString) (rangeMin rangeMax : Int)
    (j : Nat) (hj : 1 ≤ j) (st : Nat → σ) (cur : Nat → Int) (req : Nat → Request)
    (resp : Nat → Response RevisionRanges) (pages : Nat → RevisionRanges) (err : GoError)
    (hstart : cur 0 = 0)
    (hreq : ∀ i, i < j →
      rangesRequest conn dbName batchId collection [(rangeMin, rangeMax)] (cur i)
        = some (.ok (req i)))
    (hok : ∀ i, i + 1 < j →
      conn.Do (st i) (req i) = (.ok (resp i), st (i + 1)) ∧ (resp i).StatusCode = 200 ∧
        (resp i).body = .ok (pages i) ∧ (pages i).Ranges ≠ [] ∧
        (pages i).Resume = cur (i + 1) ∧ cur (i + 1) ≠ 0)
    (hstate : (conn.Do (st (j - 1)) (req (j - 1))).2 = st j)
    (hfail : roundTripFails (conn.Do (st (j - 1)) (req (j - 1))).1 err)
    (fuel : Nat) (hfuel : j ≤ fuel) :
    getRanges (recording conn) dbName batchId collection rangeMin rangeMax fuel (st 0, [])
        = .failed err (st j, (List.range j).map req) j ∧
      ((List.range j).map req).length = j := by
  have h := getRangesLoop_abort conn dbName batchId collection [(rangeMin, rangeMax)]
    j st cur req resp pages err hreq hok hstate hfail fuel 0 [] [] (by omega) (by omega)
  rw [hstart] at h
  unfold getRanges
  rw [h]
  simp

/-- Witness for C11 with `j = 2`: over `flakyConn` the first round trip serves a
page with the cursor 4 and the second is a transport error; the walk ends with
that error after 2 calls and 2 recorded requests. -/
theorem walker_abort_witness :
    getRanges (recording flakyConn) (goString "revision_tree") (goString "123")
        (goString "revision_tree") 1 9 5 (0, [])
        = .failed ⟨"connection reset"⟩ (2, (List.range 2).map flakyRequest) 2 ∧
      ((List.range 2).map flakyRequest).length = 2 :=
  walker_abort flakyConn (goString "revision_tree") (goString "123")
    (goString "revision_tree") 1 9 2 (by decide) (fun i => i) flakyCursor flakyRequest
    (fun _ => ⟨200, ⟨"unexpected status"⟩, .ok ⟨[[1, 2, 3]], 4⟩⟩)
    (fun _ => ⟨[[1, 2, 3]], 4⟩) ⟨"connection reset"⟩ rfl
    (by
      intro i hi
      interval_cases i <;> rfl)
    (by
      intro i hi
      have h0 : i = 0 := by omega
      subst h0
      exact ⟨rfl, rfl, rfl, by simp, rfl, by decide⟩)
    rfl (Or.inl rfl) 5 (by decide)

/-- C12, as stated, fails: for the cursor `-1`, which is not 0, the request
handed to the transport carries no `resume` parameter, while
`encodeRevision (-1)` is the empty string. -/
theorem resume_nonzero_fails :
    ¬ (∃ req res s1,
        GetRevisionsByRanges (recording (pagingConn [] 1)) ((), []) [] [] [] [] (-1)
          = some (res, (s1, [req])) ∧
        req.query.lookup "resume" = encodeRevision (-1)) := by
  rintro ⟨req, res, s1, h1, h2⟩
  have h3 : GetRevisionsByRanges (recording (pagingConn [] 1)) ((), []) [] [] [] [] (-1)
      = some ((pagingRemote [] 1 0, none), ((),
          [⟨"PUT", [goString "_db", [], goString "_api/replication/revisions/ranges"],
            [("batchId", []), ("collection", [])], some (.minMax [])⟩])) := rfl
  rw [h3] at h1
  have h4 := congrArg (fun o => o.map (fun x => x.2.2)) h1
  simp only [Option.map_some', Option.some.injEq, List.cons.injEq, and_true] at h4
  rw [← h4] at h2
  revert h2
  decide

/-- C12, amended: for every `int64` resume cursor `r`, over a connection whose
fresh request has an empty query and whose `SetBodyArray` succeeds and keeps the
query, `GetRevisionsByRanges` hands exactly one request to the transport; it
carries the query parameters `batchId` and `collection`, no `resume` parameter
when `r ≤ 0`, and `resume = encodeRevision r` when `0 < r`. -/
theorem resume_on_wire {σ : Type} (conn : Connection σ RevisionRanges) (s : σ)
    (dbName batchId collection : GoString) (minMaxRevision : List (Int × Int))
    (r : Int) (hr : isInt64 r) (req0 : Request)
    (hnew : conn.NewRequest "PUT"
      [goString "_db", dbName, goString "_api/replication/revisions/ranges"] = .ok req0)
    (hfresh : req0.query = [])
    (hbody : ∀ q, ∃ q1, conn.SetBodyArray q minMaxRevision = .ok q1 ∧ q1.query = q.query) :
    ∃ req res s1,
      GetRevisionsByRanges (recording conn) (s, []) dbName batchId collection
          minMaxRevision r = some (res, (s1, [req])) ∧
      req.query.lookup "batchId" = some batchId ∧
      req.query.lookup "collection" = some collection ∧
      (r ≤ 0 → req.query.lookup "resume" = none) ∧
      (0 < r → req.query.lookup "resume" = encodeRevision r) := by
  obtain ⟨req, hreq, hle, hpos⟩ := rangesRequest_query conn dbName batchId collection
    minMaxRevision r hr req0 hnew hfresh hbody
  refine ⟨req, readResponse RevisionRanges.zero Except.ok (conn.Do s req).1,
    (conn.Do s req).2, ?_, ?_, ?_, ?_, ?_⟩
  · rw [GetRevisionsByRanges_recording conn s [] dbName batchId collection minMaxRevision r
      req hreq, List.nil_append]
  · rcases le_or_lt r 0 with h | h
    · rw [hle h]
      simp [List.lookup]
    · obtain ⟨e, _, hq⟩ := hpos h
      rw [hq]
      simp [List.lookup]
  · rcases le_or_lt r 0 with h | h
    · rw [hle h]
      simp [List.lookup]
    · obtain ⟨e, _, hq⟩ := hpos h
      rw [hq]
      simp [List.lookup]
  · intro h
    rw [hle h]
    simp [List.lookup]
  · intro h
    obtain ⟨e, he, hq⟩ := hpos h
    rw [hq, he]
    simp [List.lookup]

/-- Witness for the amended C12: over `pagingConn` the cursor 70000 is sent as
`resume = encodeRevision 70000`. -/
theorem resume_on_wire_witness :
    ∃ req res s1,
      GetRevisionsByRanges (recording (pagingConn exampleRevisions 3)) ((), [])
          (goString "revision_tree") (goString "123") (goString "revision_tree")
          [(1, 70000)] 70000 = some (res, (s1, [req])) ∧
      req.query.lookup "batchId" = some (goString "123") ∧
      req.query.lookup "collection" = some (goString "revision_tree") ∧
      ((70000 : Int) ≤ 0 → req.query.lookup "resume" = none) ∧
      ((0 : Int) < 70000 → req.query.lookup "resume" = encodeRevision 70000) :=
  resume_on_wire (pagingConn exampleRevisions 3) () (goString "revision_tree")
    (goString "123") (goString "revision_tree") [(1, 70000)] 70000 (by decide)
    ⟨"PUT", [goString "_db", goString "revision_tree",
      goString "_api/replication/revisions/ranges"], [], none⟩ rfl rfl
    (fun q => ⟨{ q with body := some (.minMax [(1, 70000)]) }, rfl, rfl⟩)

/-! ## The walk against a remote side that is a function of the cursor -/

theorem wireCursor_without_resume (req : Request) (batchId collection : GoString)
    (h : req.query = [("batchId", batchId), ("collection", collection)]) :
    wireCursor req = 0 := by
  unfold wireCursor
  rw [h]
  simp [List.lookup]

theorem wireCursor_with_resume (req : Request) (batchId collection r : GoString)
    (h : req.query = [("batchId", batchId), ("collection", collection), ("resume", r)]) :
    wireCursor req = decodeRevision r := by
  unfold wireCursor
  rw [h]
  simp [List.lookup]

theorem rangesRequest_wireCursor {σ β : Type} (conn : Connection σ β)
    (dbName batchId collection : GoString) (minMaxRevision : List (Int × Int))
    (r : Int) (h0 : 0 ≤ r) (h1 : r ≤ 2 ^ 63 - 1) (req0 : Request)
    (hnew : conn.NewRequest "PUT"
      [goString "_db", dbName, goString "_api/replication/revisions/ranges"] = .ok req0)
    (hfresh : req0.query = [])
    (hbody : ∀ q, ∃ q1, conn.SetBodyArray q minMaxRevision = .ok q1 ∧ q1.query = q.query) :
    ∃ req, rangesRequest conn dbName batchId collection minMaxRevision r = some (.ok req) ∧
      wireCursor req = r := by
  have hint : isInt64 r := by
    unfold isInt64
    constructor <;> omega
  obtain ⟨req, hreq, hle, hpos⟩ := rangesRequest_query conn dbName batchId collection
    minMaxRevision r hint req0 hnew hfresh hbody
  refine ⟨req, hreq, ?_⟩
  rcases eq_or_lt_of_le h0 with hz | hp
  · rw [wireCursor_without_resume req batchId collection (hle (by omega)), hz]
  · obtain ⟨e, he, hq⟩ := hpos hp
    obtain ⟨e1, he1, hd⟩ := encode_then_decode r h0 h1
    rw [he] at he1
    cases he1
    rw [wireCursor_with_resume req batchId collection e hq, hd]

theorem getRangesLoop_wire {σ : Type} (conn : Connection σ RevisionRanges)
    (dbName batchId collection : GoString) (rangeRevisions : List (Int × Int))
    (req0 : Request) (remote : Int → RevisionRanges)
    (L : List Int) (k : Nat) (hk : 1 ≤ k) (c : Nat → Int) (rest : Nat → List (List Int))
    (hnew : conn.NewRequest "PUT"
      [goString "_db", dbName, goString "_api/replication/revisions/ranges"] = .ok req0)
    (hfresh : req0.query = [])
    (hbody : ∀ q, ∃ q1, conn.SetBodyArray q rangeRevisions = .ok q1 ∧ q1.query = q.query)
    (hserve : ∀ s req, ∃ resp, (conn.Do s req).1 = .ok resp ∧ resp.StatusCode = 200 ∧
      resp.body = .ok (remote (wireCursor req)))
    (hpage : ∀ i, i < pageCount L k →
      remote (c i) = ⟨((L.drop (i * k)).take k) :: rest i, c (i + 1)⟩)
    (hrange : ∀ i, i < pageCount L k → 0 ≤ c i ∧ c i ≤ 2 ^ 63 - 1)
    (hmore : ∀ i, 0 < i → i < pageCount L k → c i ≠ 0)
    (hlast : c (pageCount L k) = 0) :
    ∀ (fuel i : Nat) (acc : List Int) (s : σ) (log : List Request),
      i < pageCount L k → pageCount L k - i ≤ fuel →
      ∃ sfinal logfinal,
        getRangesLoop (recording conn) dbName batchId collection rangeRevisions fuel
            (s, log) (c i) acc i
          = .done (acc ++ L.drop (i * k)) (sfinal, logfinal) (pageCount L k) ∧
        logfinal.map wireCursor
          = log.map wireCursor ++ ((List.range (pageCount L k)).drop i).map c := by
  intro fuel
  induction fuel with
  | zero =>
    intro i acc s log hi hfuel
    omega
  | succ fuel ih =>
    intro i acc s log hi hfuel
    obtain ⟨req, hreq, hcur⟩ := rangesRequest_wireCursor conn dbName batchId collection
      rangeRevisions (c i) (hrange i hi).1 (hrange i hi).2 req0 hnew hfresh hbody
    obtain ⟨resp, hresp, hstatus, hrespbody⟩ := hserve s req
    rw [hcur, hpage i hi] at hrespbody
    rw [getRangesLoop, GetRevisionsByRanges_recording conn s log dbName batchId
      collection rangeRevisions (c i) req hreq, hresp,
      readResponse_ok _ _ resp hstatus, hrespbody]
    simp only []
    rcases Nat.lt_or_ge (i + 1) (pageCount L k) with hlt | hge
    · rw [if_neg (hmore (i + 1) (by omega) hlt)]
      obtain ⟨sfinal, logfinal, hloop, hlog⟩ := ih (i + 1)
        (acc ++ (L.drop (i * k)).take k) (conn.Do s req).2 (log ++ [req]) hlt (by omega)
      refine ⟨sfinal, logfinal, ?_, ?_⟩
      · rw [hloop]
        have hsplit : L.drop ((i + 1) * k) = (L.drop (i * k)).drop k := by
          rw [List.drop_drop]
          congr 1
          ring
        rw [hsplit, List.append_assoc, List.take_append_drop]
      · rw [hlog, range_drop_cons _ i hi, List.map_append, List.map_cons, List.map_nil,
          List.map_cons, hcur, List.append_assoc]
        rfl
    · have hm : i + 1 = pageCount L k := by omega
      have hlen := length_le_pageCount_mul L k hk
      rw [← hm] at hlen
      have htake : (L.drop (i * k)).take k = L.drop (i * k) := by
        apply List.take_of_length_le
        rw [List.length_drop]
        have : (i + 1) * k = i * k + k := by ring
        omega
      refine ⟨(conn.Do s req).2, log ++ [req], ?_, ?_⟩
      · rw [hm, hlast, if_pos rfl, htake]
      · have hi1 : i = pageCount L k - 1 := by omega
        rw [List.map_append, List.map_cons, List.map_nil, hcur, hi1,
          range_drop_last _ (by omega)]
        rfl

theorem GetRevisionsByRanges_nonpos_wire (resume : Int) (h : resume ≤ 0) :
    GetRevisionsByRanges (wireConn negativeCursorRemote) () [] [] [] [(1, 2)] resume
      = some ((⟨[[1]], -(2 ^ 63)⟩, none), ()) := by
  unfold GetRevisionsByRanges
  simp only [wireConn, if_neg (not_lt.mpr h)]
  rfl

theorem getRangesLoop_never_done (fuel : Nat) : ∀ (resume : Int) (acc : List Int)
    (trips : Nat), resume ≤ 0 →
    getRangesLoop (wireConn negativeCursorRemote) [] [] [] [(1, 2)] fuel () resume acc trips
      = .outOfFuel := by
  induction fuel with
  | zero =>
    intro resume acc trips _
    rfl
  | succ fuel ih =>
    intro resume acc trips h
    rw [getRangesLoop, GetRevisionsByRanges_nonpos_wire resume h]
    simp only []
    rw [if_neg (by decide)]
    exact ih _ _ _ (by decide)

/-- C10, as stated, fails: `negativeCursorRemote`, a function of the cursor,
answers the cursor 0 with the first page of the list 1, 2 and the non-zero
cursor `-2^63`, and the cursor `-2^63` with the last page and the cursor 0; yet
the walk over the wire never returns, whatever the step budget, because a
negative cursor is not sent. -/
theorem walker_completion_nonzero_fails :
    negativeCursorRemote 0 = ⟨[[1]], -(2 ^ 63)⟩ ∧
      negativeCursorRemote (-(2 ^ 63)) = ⟨[[2]], 0⟩ ∧ (-(2 ^ 63) : Int) ≠ 0 ∧
      ¬ (∃ fuel revisions state trips,
        getRanges (wireConn negativeCursorRemote) [] [] [] 1 2 fuel ()
          = .done revisions state trips) := by
  refine ⟨rfl, rfl, by decide, ?_⟩
  rintro ⟨fuel, revisions, state, trips, h⟩
  unfold getRanges at h
  rw [getRangesLoop_never_done fuel 0 [] 0 (le_refl 0)] at h
  cases h

/-- C10, amended: walker completion for positive cursors. Let the remote side be
a function `remote` from the resume cursor to the reply, served over the wire by
a connection whose fresh request has an empty query, whose `SetBodyArray`
succeeds and keeps the query, and whose `Do` answers every request with status
200 and the reply of `remote` to the cursor read from the `resume` parameter.
For every list `L` of revisions (an ascending one in particular) and every page
size `k ≥ 1`: when `remote` answers the cursors `c 0 = 0, c 1, ..` with the next
`k` revisions of `L` in row 0, a resume cursor in `1 .. 2^63 - 1` on every page
but the last and the cursor 0 on the last, the loop of `getRanges` terminates
(any step budget of at least the page count is enough) and returns exactly `L`
in its order; the transport has been handed one request per page, the `i`-th
carrying the cursor `c i`, which are `⌈|L| / k⌉` round trips when `L` is not
empty. -/
theorem walker_completion {σ : Type} (conn : Connection σ RevisionRanges) (s0 : σ)
    (dbName batchId collection : GoString) (rangeMin rangeMax : Int)
    (req0 : Request) (remote : Int → RevisionRanges)
    (L : List Int) (k : Nat) (hk : 1 ≤ k) (c : Nat → Int) (rest : Nat → List (List Int))
    (hnew : conn.NewRequest "PUT"
      [goString "_db", dbName, goString "_api/replication/revisions/ranges"] = .ok req0)
    (hfresh : req0.query = [])
    (hbody : ∀ q, ∃ q1, conn.SetBodyArray q [(rangeMin, rangeMax)] = .ok q1 ∧
      q1.query = q.query)
    (hserve : ∀ s req, ∃ resp, (conn.Do s req).1 = .ok resp ∧ resp.StatusCode = 200 ∧
      resp.body = .ok (remote (wireCursor req)))
    (hstart : c 0 = 0)
    (hpage : ∀ i, i < pageCount L k →
      remote (c i) = ⟨((L.drop (i * k)).take k) :: rest i, c (i + 1)⟩)
    (hmore : ∀ i, 0 < i → i < pageCount L k → 0 < c i ∧ c i ≤ 2 ^ 63 - 1)
    (hlast : c (pageCount L k) = 0)
    (fuel : Nat) (hfuel : pageCount L k ≤ fuel) :
    ∃ sfinal log,
      getRanges (recording conn) dbName batchId collection rangeMin rangeMax fuel (s0, [])
        = .done L (sfinal, log) (pageCount L k) ∧
      log.length = pageCount L k ∧
      log.map wireCursor = (List.range (pageCount L k)).map c ∧
      (L ≠ [] → pageCount L k = L.length ⌈/⌉ k) := by
  have hrange : ∀ i, i < pageCount L k → 0 ≤ c i ∧ c i ≤ 2 ^ 63 - 1 := by
    intro i hi
    rcases Nat.eq_zero_or_pos i with hz | hp
    · rw [hz, hstart]
      constructor <;> norm_num
    · exact ⟨(hmore i hp hi).1.le, (hmore i hp hi).2⟩
  have hne : ∀ i, 0 < i → i < pageCount L k → c i ≠ 0 :=
    fun i hp hi => (hmore i hp hi).1.ne'
  obtain ⟨sfinal, log, hloop, hlog⟩ := getRangesLoop_wire conn dbName batchId collection
    [(rangeMin, rangeMax)] req0 remote L k hk c rest hnew hfresh hbody hserve hpage hrange
    hne hlast fuel 0 [] s0 [] (pageCount_pos L k hk) (by omega)
  rw [hstart] at hloop
  refine ⟨sfinal, log, ?_, ?_, ?_, ?_⟩
  · unfold getRanges
    rw [hloop]
    simp
  · have hlen := congrArg List.length hlog
    simpa using hlen
  · simpa using hlog
  · intro hL
    have hlen : L.length ≠ 0 := fun h0 => hL (List.length_eq_zero.mp h0)
    unfold pageCount
    rw [if_neg hlen, Nat.ceilDiv_eq_add_pred_div]

/-- Witness for the amended C10: the seven revisions of `exampleRevisions`
served over the wire by `pagingConn` in pages of 3, with the cursors 65 and
70000, are walked in 3 round trips. -/
theorem walker_completion_witness :
    ∃ sfinal log,
      getRanges (recording (pagingConn exampleRevisions 3)) (goString "revision_tree")
          (goString "123") (goString "revision_tree") 1 70000 3 ((), [])
        = .done exampleRevisions (sfinal, log) (pageCount exampleRevisions 3) ∧
      log.length = pageCount exampleRevisions 3 ∧
      log.map wireCursor = (List.range (pageCount exampleRevisions 3)).map exampleCursor ∧
      (exampleRevisions ≠ [] → pageCount exampleRevisions 3 = exampleRevisions.length ⌈/⌉ 3) :=
  walker_completion (pagingConn exampleRevisions 3) () (goString "revision_tree")
    (goString "123") (goString "revision_tree") 1 70000
    ⟨"PUT", [goString "_db", goString "revision_tree",
      goString "_api/replication/revisions/ranges"], [], none⟩
    (pagingRemote exampleRevisions 3) exampleRevisions 3 (by decide) exampleCursor
    (fun _ => []) rfl rfl
    (fun q => ⟨{ q with body := some (.minMax [(1, 70000)]) }, rfl, rfl⟩)
    (fun _ _ => ⟨_, rfl, rfl, rfl⟩) rfl
    (by
      intro i hi
      have h3 : pageCount exampleRevisions 3 = 3 := by decide
      rw [h3] at hi
      interval_cases i <;> rfl)
    (by
      intro i h0 hi
      have h3 : pageCount exampleRevisions 3 = 3 := by decide
      rw [h3] at hi
      interval_cases i <;> decide)
    (by decide) 3 (by decide)

end Revision
